import Mathlib

/-!
Verification of the transaction admission queue (`core/src/queue.rs`).

The embedding models the queue sequentially: the `DashMap`s become
association lists, the `ArrayQueue` ring buffer becomes a list with its
capacity bound enforced at push time, and the clock reading becomes a
`now : Nat` field of the queue state (durations are natural numbers; the
saturating subtraction of `Duration` is the truncated subtraction of `Nat`).
Each Rust method becomes a pure function returning the updated state.
-/

namespace IrohaQueue

/-- A signed-transaction fingerprint, `HashOf<SignedTransaction>` in the source. -/
abbrev TxHash := Nat

/-- An `AccountId`. -/
abbrev AccId := Nat

/-- A `PublicKey`. -/
abbrev PubKey := Nat

/-- `AcceptedTransaction`: immutable record with the accessors the queue uses
(`hash`, `authority`, `creation_time`, `time_to_live`, signatories). -/
structure AcceptedTransaction where
  hash : TxHash
  authority : AccId
  creationTime : Nat
  timeToLive : Option Nat
  signatories : List PubKey
deriving DecidableEq, Repr

/-- An account as the queue sees it: only its signature-check policy,
`Account::check_signature_check_condition`. -/
structure Account where
  checkSignatureCheckCondition : List PubKey → Bool

/-- The read-only state view: `has_transaction` and `map_account`. -/
structure StateView where
  hasTransaction : TxHash → Bool
  mapAccount : AccId → Option Account

/-- `TransactionStatus` of emitted pipeline events (only the two the queue emits). -/
inductive TransactionStatus where
  | Queued
  | Expired
deriving DecidableEq, Repr

/-- `TransactionEvent` as sent to the events channel. -/
structure TransactionEvent where
  hash : TxHash
  blockHeight : Option Nat
  status : TransactionStatus
deriving DecidableEq, Repr

/-- The queue state: `tx_hashes` (order ring buffer), `accepted_txs` (body map),
`txs_per_user` (counter map), the configuration, the clock reading, and the
events emitted so far (the event channel modelled as an append-only trace). -/
structure Queue where
  txHashes : List TxHash
  acceptedTxs : List (TxHash × AcceptedTransaction)
  txsPerUser : List (AccId × Nat)
  capacity : Nat
  capacityPerUser : Nat
  txTimeToLive : Nat
  futureThreshold : Nat
  now : Nat
  events : List TransactionEvent
deriving DecidableEq

/-- Queue push error, `queue::Error`. -/
inductive Error where
  | Full
  | InFuture
  | Expired
  | InBlockchain
  | MaximumTransactionsPerUser
  | IsInQueue
  | SignatureCondition
deriving DecidableEq, Repr

/-- `queue::Failure`: the rejected transaction together with the reason. -/
structure Failure where
  tx : AcceptedTransaction
  err : Error
deriving DecidableEq, Repr

/-- First-match lookup in an association list (a `DashMap` get). -/
def lookupKey {α : Type} (k : Nat) : List (Nat × α) → Option α
  | [] => none
  | p :: rest => if p.1 = k then some p.2 else lookupKey k rest

/-- Remove the first entry with the given key (a `DashMap` remove). -/
def eraseKey {α : Type} (k : Nat) : List (Nat × α) → List (Nat × α)
  | [] => []
  | p :: rest => if p.1 = k then rest else p :: eraseKey k rest

/-- Replace the value of the first entry with the given key. -/
def updateKey {α : Type} (k : Nat) (v : α) : List (Nat × α) → List (Nat × α)
  | [] => []
  | p :: rest => if p.1 = k then (k, v) :: rest else p :: updateKey k v rest

/-- Number of body entries whose transaction authority is the given account. -/
def countAuthority (a : AccId) (body : List (TxHash × AcceptedTransaction)) : Nat :=
  body.countP fun p => p.2.authority == a

/-- `AcceptedTransaction::check_signature_condition`: look the authority up in
the state view and apply the account policy to the signatories; an absent
account yields `false` (`unwrap_or(false)`). -/
def AcceptedTransaction.checkSignatureCondition
    (tx : AcceptedTransaction) (sv : StateView) : Bool :=
  ((sv.mapAccount tx.authority).map fun account =>
    account.checkSignatureCheckCondition tx.signatories).getD false

/-- `AcceptedTransaction::is_in_blockchain`. -/
def AcceptedTransaction.isInBlockchain
    (tx : AcceptedTransaction) (sv : StateView) : Bool :=
  sv.hasTransaction tx.hash

/-- `Queue::is_expired`: the waiting time (saturating) plus the padding exceeds
the effective time limit, which caps a per-transaction TTL by the default. -/
def Queue.isExpired (q : Queue) (tx : AcceptedTransaction) (timePadding : Nat) : Bool :=
  let timeLimit :=
    match tx.timeToLive with
    | none => q.txTimeToLive
    | some txTimeToLive => min q.txTimeToLive txTimeToLive
  decide (q.now - tx.creationTime + timePadding > timeLimit)

/-- `Queue::is_in_future`: the creation time is ahead of the clock (saturating)
by more than the configured threshold. -/
def Queue.isInFuture (q : Queue) (tx : AcceptedTransaction) : Bool :=
  decide (tx.creationTime - q.now > q.futureThreshold)

/-- `Queue::is_pending`: not expired and not in the committed ledger. -/
def Queue.isPending (q : Queue) (tx : AcceptedTransaction) (sv : StateView)
    (timePadding : Nat) : Bool :=
  !q.isExpired tx timePadding && !tx.isInBlockchain sv

/-- `Queue::check_tx`: the first failing predicate wins, in the order
`InFuture`, `Expired`, `InBlockchain`, `SignatureCondition`. -/
def Queue.checkTx (q : Queue) (tx : AcceptedTransaction) (sv : StateView)
    (timePadding : Nat) : Except Error Unit :=
  if q.isInFuture tx then .error .InFuture
  else if q.isExpired tx timePadding then .error .Expired
  else if tx.isInBlockchain sv then .error .InBlockchain
  else if !tx.checkSignatureCondition sv then .error .SignatureCondition
  else .ok ()

/-- `Queue::all_transactions`: the body entries pending under padding zero. -/
def Queue.allTransactions (q : Queue) (sv : StateView) : List AcceptedTransaction :=
  (q.acceptedTxs.filter fun p => q.isPending p.2 sv 0).map Prod.snd

/-- `Queue::n_random_transactions` samples without replacement from the pending
body entries; the random sampling itself is not modelled, only the pool of
candidates the iterator offers to `choose_multiple`. -/
def Queue.nRandomCandidates (q : Queue) (sv : StateView) : List AcceptedTransaction :=
  (q.acceptedTxs.filter fun p => q.isPending p.2 sv 0).map Prod.snd

/-- `Queue::check_and_increase_per_user_tx_count`: vacant inserts 1; occupied at
the cap rejects, otherwise increments. -/
def Queue.checkAndIncreasePerUserTxCount (q : Queue) (accountId : AccId) :
    Except Error (List (AccId × Nat)) :=
  match lookupKey accountId q.txsPerUser with
  | none => .ok ((accountId, 1) :: q.txsPerUser)
  | some txs =>
      if txs ≥ q.capacityPerUser then .error .MaximumTransactionsPerUser
      else .ok (updateKey accountId (txs + 1) q.txsPerUser)

/-- `Queue::decrease_per_user_tx_count`: decrement, removing the entry when the
count reaches zero.  The source panics on a vacant entry ("always paired with
increase"); that branch is modelled as the identity and shown unreachable. -/
def decreasePerUserTxCount (accountId : AccId) (perUser : List (AccId × Nat)) :
    List (AccId × Nat) :=
  match lookupKey accountId perUser with
  | none => perUser
  | some count =>
      if count > 1 then updateKey accountId (count - 1) perUser
      else eraseKey accountId perUser

/-- `Queue::push`.  Returns the result together with the state after the call:
check with padding 0, duplicate test, sampled capacity test, per-user
increment, body insert, ring push (rolling back body and counter when the ring
is full), `Queued` event. -/
def Queue.push (q : Queue) (tx : AcceptedTransaction) (sv : StateView) :
    Except Failure Unit × Queue :=
  match q.checkTx tx sv 0 with
  | .error err => (.error ⟨tx, err⟩, q)
  | .ok _ =>
    let txsLen := q.acceptedTxs.length
    let hash := tx.hash
    match lookupKey hash q.acceptedTxs with
    | some _ => (.error ⟨tx, .IsInQueue⟩, q)
    | none =>
      if txsLen ≥ q.capacity then (.error ⟨tx, .Full⟩, q)
      else
        match q.checkAndIncreasePerUserTxCount tx.authority with
        | .error err => (.error ⟨tx, err⟩, q)
        | .ok perUser =>
          let body := (hash, tx) :: q.acceptedTxs
          if q.txHashes.length ≥ q.capacity then
            (.error ⟨tx, .Full⟩,
              { q with acceptedTxs := eraseKey hash body,
                       txsPerUser := decreasePerUserTxCount tx.authority perUser })
          else
            (.ok (),
              { q with acceptedTxs := body,
                       txsPerUser := perUser,
                       txHashes := q.txHashes ++ [hash],
                       events := q.events ++
                         [{ hash := hash, blockHeight := none,
                            status := TransactionStatus.Queued }] })

/-- The state left behind by the drain loop: hashes still in the ring, the body
map, the counter map, the output vector, the `seen` list and the expired batch. -/
structure DrainOut where
  remaining : List TxHash
  body : List (TxHash × AcceptedTransaction)
  perUser : List (AccId × Nat)
  out : List AcceptedTransaction
  seen : List TxHash
  expired : List AcceptedTransaction
deriving DecidableEq

/-- The fused loop of `get_transactions_for_block`: repeatedly
`pop_from_queue` (skip a hash with no body entry; on a failed check remove the
entry, decrement the counter and record an expired transaction), filter popped
transactions against the fixed deduplication set `dedup` (the hashes of the
initial output vector), and stop after `need` transactions have been appended
or the ring is empty.  Popped transactions that pass the check go to `seen`
whether or not they are appended. -/
def drainGo (q : Queue) (sv : StateView) (timePadding : Nat) (dedup : List TxHash) :
    Nat → List TxHash → List (TxHash × AcceptedTransaction) →
    List (AccId × Nat) → List AcceptedTransaction → List TxHash →
    List AcceptedTransaction → DrainOut
  | _, [], body, perUser, out, seen, expired =>
      ⟨[], body, perUser, out, seen, expired⟩
  | 0, h :: rest, body, perUser, out, seen, expired =>
      ⟨h :: rest, body, perUser, out, seen, expired⟩
  | need + 1, h :: rest, body, perUser, out, seen, expired =>
      match lookupKey h body with
      | none => drainGo q sv timePadding dedup (need + 1) rest body perUser out seen expired
      | some tx =>
        match q.checkTx tx sv timePadding with
        | .error e =>
            drainGo q sv timePadding dedup (need + 1) rest (eraseKey h body)
              (decreasePerUserTxCount tx.authority perUser) out seen
              (if e = Error.Expired then expired ++ [tx] else expired)
        | .ok _ =>
            if tx.hash ∈ dedup then
              drainGo q sv timePadding dedup (need + 1) rest body perUser out
                (seen ++ [h]) expired
            else
              drainGo q sv timePadding dedup need rest body perUser (out ++ [tx])
                (seen ++ [h]) expired

/-- `Queue::get_transactions_for_block`: early return when the output is
already full; otherwise run the drain loop with the deduplication set built
from the initial output vector, push the `seen` hashes back behind the
untouched remainder of the ring, and emit one `Expired` event per expired
transaction. -/
def Queue.getTransactionsForBlock (q : Queue) (sv : StateView) (maxTxsInBlock : Nat)
    (transactions : List AcceptedTransaction) (timePadding : Nat) :
    Queue × List AcceptedTransaction :=
  if maxTxsInBlock ≤ transactions.length then (q, transactions)
  else
    let transactionsHashes := transactions.map AcceptedTransaction.hash
    let r := drainGo q sv timePadding transactionsHashes
      (maxTxsInBlock - transactions.length) q.txHashes q.acceptedTxs q.txsPerUser
      transactions [] []
    ({ q with
        txHashes := r.remaining ++ r.seen,
        acceptedTxs := r.body,
        txsPerUser := r.perUser,
        events := q.events ++ r.expired.map fun tx =>
          { hash := tx.hash, blockHeight := none,
            status := TransactionStatus.Expired } },
      r.out)

/-- The drain loop as the specification words it (its duplicate guard reads
"the deduplication set is built from the initial contents of `out` plus
everything appended"): identical to `drainGo` except that the deduplication
test consults the hashes of the current output vector, which holds the initial
entries plus everything appended so far, instead of a fixed set computed once. -/
def drainGoSpecDedup (q : Queue) (sv : StateView) (timePadding : Nat) :
    Nat → List TxHash → List (TxHash × AcceptedTransaction) →
    List (AccId × Nat) → List AcceptedTransaction → List TxHash →
    List AcceptedTransaction → DrainOut
  | _, [], body, perUser, out, seen, expired =>
      ⟨[], body, perUser, out, seen, expired⟩
  | 0, h :: rest, body, perUser, out, seen, expired =>
      ⟨h :: rest, body, perUser, out, seen, expired⟩
  | need + 1, h :: rest, body, perUser, out, seen, expired =>
      match lookupKey h body with
      | none => drainGoSpecDedup q sv timePadding (need + 1) rest body perUser out
          seen expired
      | some tx =>
        match q.checkTx tx sv timePadding with
        | .error e =>
            drainGoSpecDedup q sv timePadding (need + 1) rest (eraseKey h body)
              (decreasePerUserTxCount tx.authority perUser) out seen
              (if e = Error.Expired then expired ++ [tx] else expired)
        | .ok _ =>
            if tx.hash ∈ out.map AcceptedTransaction.hash then
              drainGoSpecDedup q sv timePadding (need + 1) rest body perUser out
                (seen ++ [h]) expired
            else
              drainGoSpecDedup q sv timePadding need rest body perUser (out ++ [tx])
                (seen ++ [h]) expired

/-- `get_transactions_for_block` with the drain loop replaced by the
specification-worded deduplication variant. -/
def Queue.getTransactionsForBlockSpecDedup (q : Queue) (sv : StateView)
    (maxTxsInBlock : Nat) (transactions : List AcceptedTransaction)
    (timePadding : Nat) : Queue × List AcceptedTransaction :=
  if maxTxsInBlock ≤ transactions.length then (q, transactions)
  else
    let r := drainGoSpecDedup q sv timePadding (maxTxsInBlock - transactions.length)
      q.txHashes q.acceptedTxs q.txsPerUser transactions [] []
    ({ q with
        txHashes := r.remaining ++ r.seen,
        acceptedTxs := r.body,
        txsPerUser := r.perUser,
        events := q.events ++ r.expired.map fun tx =>
          { hash := tx.hash, blockHeight := none,
            status := TransactionStatus.Expired } },
      r.out)

/-- The queue produced by `Queue::from_config`: empty structures, the
configuration, and a clock reading. -/
def initQueue (capacity capacityPerUser txTimeToLive futureThreshold now : Nat) : Queue :=
  { txHashes := []
    acceptedTxs := []
    txsPerUser := []
    capacity := capacity
    capacityPerUser := capacityPerUser
    txTimeToLive := txTimeToLive
    futureThreshold := futureThreshold
    now := now
    events := [] }

/-- The queue states reachable from a fresh queue (positive capacities, as the
configuration fields are `NonZeroUsize`) by pushes, drains, and clock movement
(the test clock may advance or rewind). -/
inductive Reachable : Queue → Prop where
  | init : ∀ capacity capacityPerUser ttl fut now, 0 < capacity → 0 < capacityPerUser →
      Reachable (initQueue capacity capacityPerUser ttl fut now)
  | push : ∀ q tx sv, Reachable q → Reachable (Queue.push q tx sv).2
  | drain : ∀ q sv maxTxs out timePadding, Reachable q →
      Reachable (Queue.getTransactionsForBlock q sv maxTxs out timePadding).1
  | tick : ∀ q t, Reachable q → Reachable { q with now := t }

/-- A state view with an empty ledger whose accounts accept every signature set. -/
def svAccept : StateView :=
  { hasTransaction := fun _ => false
    mapAccount := fun _ => some { checkSignatureCheckCondition := fun _ => true } }

/-- A state view whose committed ledger holds exactly the fingerprints in `hs`;
accounts accept every signature set. -/
def svCommitted (hs : List TxHash) : StateView :=
  { hasTransaction := fun h => decide (h ∈ hs)
    mapAccount := fun _ => some { checkSignatureCheckCondition := fun _ => true } }

/-- A state view with an empty ledger whose accounts reject every signature set. -/
def svNoSig : StateView :=
  { hasTransaction := fun _ => false
    mapAccount := fun _ => some { checkSignatureCheckCondition := fun _ => false } }

/-- A small concrete transaction used in witnesses. -/
def txW (h : TxHash) (a : AccId) (ct : Nat) : AcceptedTransaction :=
  { hash := h, authority := a, creationTime := ct, timeToLive := none,
    signatories := [1] }

/-- A fresh queue: capacity 3, 3 per user, TTL 100, future threshold 1, clock 0. -/
def qW0 : Queue := initQueue 3 3 100 1 0

/-- `qW0` after accepting one transaction by account 7. -/
def qW1 : Queue := (qW0.push (txW 1 7 0) svAccept).2

/-- `qW1` after accepting a second transaction by account 8. -/
def qW2 : Queue := (qW1.push (txW 2 8 0) svAccept).2

/-- A reachable state holding one admitted transaction whose creation time is
now in the future: admitted at clock 5, then the clock rewound to 0. -/
def qC8 : Queue := { ((initQueue 3 3 100 1 5).push (txW 1 7 5) svAccept).2 with now := 0 }

/-- A reachable state holding one admitted transaction, with the clock then
advanced past its TTL. -/
def qC7a : Queue := { qW1 with now := 200 }

/-- The per-user counter map records exactly the number of body entries per
authority, with an absent key meaning zero. -/
def CounterAgree (body : List (TxHash × AcceptedTransaction))
    (perUser : List (AccId × Nat)) : Prop :=
  ∀ a, lookupKey a perUser =
    if countAuthority a body = 0 then none else some (countAuthority a body)

/-- The invariant carried through the drain loop, phrased on the combined list
`hs` of the hashes still to pop together with the hashes already seen (which
return to the ring when the drain finishes). -/
structure DrainInv (q : Queue) (hs : List TxHash)
    (body : List (TxHash × AcceptedTransaction))
    (perUser : List (AccId × Nat)) : Prop where
  nodupHS : hs.Nodup
  haveEntry : ∀ h ∈ hs, (lookupKey h body).isSome
  nodupKeys : (body.map Prod.fst).Nodup
  keyIsHash : ∀ p ∈ body, p.1 = p.2.hash
  counterAgree : CounterAgree body perUser
  nodupUserKeys : (perUser.map Prod.fst).Nodup
  perUserBound : ∀ p ∈ perUser, p.2 ≤ q.capacityPerUser
  bodyLen : body.length ≤ q.capacity
  hsLen : hs.length ≤ q.capacity

/-- The strengthened state invariant of reachable queue states: the order
buffer has no duplicates and each of its fingerprints has a body entry; the
body keys are unique and each equals its transaction fingerprint; the counters
agree with the body; all bounds hold; the configured capacities are positive. -/
structure Inv (q : Queue) : Prop where
  nodupHashes : q.txHashes.Nodup
  hashesHaveEntry : ∀ h ∈ q.txHashes, (lookupKey h q.acceptedTxs).isSome
  nodupKeys : (q.acceptedTxs.map Prod.fst).Nodup
  keyIsHash : ∀ p ∈ q.acceptedTxs, p.1 = p.2.hash
  counterAgree : CounterAgree q.acceptedTxs q.txsPerUser
  nodupUserKeys : (q.txsPerUser.map Prod.fst).Nodup
  perUserBound : ∀ p ∈ q.txsPerUser, p.2 ≤ q.capacityPerUser
  bodyLen : q.acceptedTxs.length ≤ q.capacity
  orderLen : q.txHashes.length ≤ q.capacity
  capPos : 0 < q.capacity
  capPerUserPos : 0 < q.capacityPerUser

/-! Association-list toolkit. -/

theorem lookupKey_eq_none {α : Type} {k : Nat} {l : List (Nat × α)} :
    lookupKey k l = none ↔ k ∉ l.map Prod.fst := by
  induction l with
  | nil => simp [lookupKey]
  | cons p rest ih =>
    by_cases h : p.1 = k <;> simp [lookupKey, h, ih, eq_comm (a := k)]

theorem lookupKey_isSome {α : Type} {k : Nat} {l : List (Nat × α)} :
    (lookupKey k l).isSome ↔ k ∈ l.map Prod.fst := by
  rcases hl : lookupKey k l with _ | v
  · simp [lookupKey_eq_none.mp hl]
  · simp only [Option.isSome_some, true_iff]
    by_contra hmem
    rw [lookupKey_eq_none.mpr hmem] at hl
    exact Option.noConfusion hl

theorem lookupKey_mem {α : Type} {k : Nat} {v : α} {l : List (Nat × α)}
    (h : lookupKey k l = some v) : (k, v) ∈ l := by
  induction l with
  | nil => simp [lookupKey] at h
  | cons p rest ih =>
    obtain ⟨pk, pv⟩ := p
    by_cases hk : pk = k
    · have hv : pv = v := by simpa [lookupKey, hk] using h
      subst hk hv
      exact List.mem_cons_self _ _
    · simp only [lookupKey, hk, if_neg, not_false_iff] at h
      exact List.mem_cons_of_mem _ (ih h)

theorem mem_lookupKey {α : Type} {k : Nat} {v : α} {l : List (Nat × α)}
    (hmem : (k, v) ∈ l) (hnd : (l.map Prod.fst).Nodup) : lookupKey k l = some v := by
  induction l with
  | nil => simp at hmem
  | cons p rest ih =>
    obtain ⟨pk, pv⟩ := p
    simp only [List.map_cons, List.nodup_cons] at hnd
    rcases List.mem_cons.mp hmem with hp | hp
    · injection hp with e1 e2
      subst e1
      subst e2
      simp [lookupKey]
    · have hk : pk ≠ k := by
        intro hcontra
        subst hcontra
        exact hnd.1 (List.mem_map_of_mem Prod.fst hp)
      simp only [lookupKey, hk, if_neg, not_false_iff]
      exact ih hp hnd.2

theorem eraseKey_sublist {α : Type} (k : Nat) (l : List (Nat × α)) :
    List.Sublist (eraseKey k l) l := by
  induction l with
  | nil => simp [eraseKey]
  | cons p rest ih =>
    by_cases h : p.1 = k
    · simpa [eraseKey, h] using List.sublist_cons_self p rest
    · simpa [eraseKey, h] using ih.cons₂ p

theorem mem_eraseKey {α : Type} {k : Nat} {p : Nat × α} {l : List (Nat × α)}
    (h : p ∈ eraseKey k l) : p ∈ l :=
  (eraseKey_sublist k l).mem h

theorem lookupKey_eraseKey_ne {α : Type} {k' k : Nat} {l : List (Nat × α)}
    (h : k' ≠ k) : lookupKey k' (eraseKey k l) = lookupKey k' l := by
  induction l with
  | nil => simp [eraseKey]
  | cons p rest ih =>
    obtain ⟨pk, pv⟩ := p
    by_cases hp : pk = k
    · have hne : ¬(pk = k') := fun hc => h ((hc ▸ hp : k' = k))
      simp [eraseKey, lookupKey, hp, hne, h.symm]
    · by_cases hp' : pk = k' <;> simp [eraseKey, lookupKey, hp, hp', ih, h, h.symm]

theorem eraseKey_of_lookup {α : Type} {k : Nat} {v : α} {l : List (Nat × α)}
    (h : lookupKey k l = some v) :
    ∃ l1 l2, l = l1 ++ (k, v) :: l2 ∧ eraseKey k l = l1 ++ l2 ∧
      k ∉ l1.map Prod.fst := by
  induction l with
  | nil => simp [lookupKey] at h
  | cons p rest ih =>
    obtain ⟨pk, pv⟩ := p
    by_cases hk : pk = k
    · have hv : pv = v := by simpa [lookupKey, hk] using h
      subst hk
      subst hv
      exact ⟨[], rest, by simp, by simp [eraseKey], by simp⟩
    · simp only [lookupKey, hk, if_neg, not_false_iff] at h
      obtain ⟨l1, l2, heq, herase, hmem⟩ := ih h
      refine ⟨(pk, pv) :: l1, l2, by simp [heq], ?_, ?_⟩
      · simp [eraseKey, hk, herase]
      · simp only [List.map_cons, List.mem_cons]
        exact fun hc => hc.elim (fun hc' => hk hc'.symm) hmem

theorem lookupKey_eraseKey_self {α : Type} {k : Nat} {l : List (Nat × α)}
    (hnd : (l.map Prod.fst).Nodup) : lookupKey k (eraseKey k l) = none := by
  induction l with
  | nil => simp [eraseKey, lookupKey]
  | cons p rest ih =>
    obtain ⟨pk, pv⟩ := p
    simp only [List.map_cons, List.nodup_cons] at hnd
    by_cases hp : pk = k
    · subst hp
      simpa [eraseKey] using lookupKey_eq_none.mpr hnd.1
    · simp [eraseKey, lookupKey, hp, ih hnd.2]

theorem length_eraseKey_of_lookup {α : Type} {k : Nat} {v : α} {l : List (Nat × α)}
    (h : lookupKey k l = some v) : (eraseKey k l).length + 1 = l.length := by
  obtain ⟨l1, l2, heq, herase, -⟩ := eraseKey_of_lookup h
  subst heq
  simp [herase, Nat.add_assoc, Nat.add_comm 1]

theorem lookupKey_updateKey_self {α : Type} {k : Nat} {v : α} {l : List (Nat × α)} :
    lookupKey k (updateKey k v l) = (lookupKey k l).map fun _ => v := by
  induction l with
  | nil => simp [updateKey, lookupKey]
  | cons p rest ih =>
    by_cases h : p.1 = k <;> simp [updateKey, lookupKey, h, ih]

theorem lookupKey_updateKey_ne {α : Type} {k' k : Nat} {v : α} {l : List (Nat × α)}
    (h : k' ≠ k) : lookupKey k' (updateKey k v l) = lookupKey k' l := by
  induction l with
  | nil => simp [updateKey]
  | cons p rest ih =>
    obtain ⟨pk, pv⟩ := p
    by_cases hp : pk = k
    · have hne : ¬(k = k') := fun hc => h hc.symm
      simp [updateKey, lookupKey, hp, hne, ih]
    · by_cases hp' : pk = k' <;> simp [updateKey, lookupKey, hp, hp', ih, h, h.symm]

theorem map_fst_updateKey {α : Type} {k : Nat} {v : α} {l : List (Nat × α)} :
    (updateKey k v l).map Prod.fst = l.map Prod.fst := by
  induction l with
  | nil => simp [updateKey]
  | cons p rest ih =>
    by_cases h : p.1 = k <;> simp [updateKey, h, ih]

theorem updateKey_cancel {α : Type} {k : Nat} {v v' : α} {l : List (Nat × α)}
    (h : lookupKey k l = some v) : updateKey k v (updateKey k v' l) = l := by
  induction l with
  | nil => simp [lookupKey] at h
  | cons p rest ih =>
    obtain ⟨pk, pv⟩ := p
    by_cases hk : pk = k
    · have hv : pv = v := by simpa [lookupKey, hk] using h
      subst hk
      subst hv
      simp [updateKey]
    · simp only [lookupKey, hk, if_neg, not_false_iff] at h
      simp [updateKey, hk, ih h]

theorem mem_updateKey {α : Type} {k : Nat} {v : α} {p : Nat × α} {l : List (Nat × α)}
    (h : p ∈ updateKey k v l) : p = (k, v) ∨ p ∈ l := by
  induction l with
  | nil => simp [updateKey] at h
  | cons q rest ih =>
    by_cases hq : q.1 = k
    · rcases List.mem_cons.mp (by simpa [updateKey, hq] using h) with hp | hp
      · exact Or.inl hp
      · exact Or.inr (List.mem_cons_of_mem _ hp)
    · rcases List.mem_cons.mp (by simpa [updateKey, hq] using h) with hp | hp
      · exact Or.inr (hp ▸ List.mem_cons_self q rest)
      · exact (ih hp).imp id (List.mem_cons_of_mem _)

theorem countAuthority_cons {a : AccId} {k : TxHash} {v : AcceptedTransaction}
    {l : List (TxHash × AcceptedTransaction)} :
    countAuthority a ((k, v) :: l) =
      countAuthority a l + if v.authority = a then 1 else 0 := by
  simp [countAuthority, List.countP_cons]

theorem countAuthority_eraseKey {a : AccId} {k : TxHash} {v : AcceptedTransaction}
    {l : List (TxHash × AcceptedTransaction)} (h : lookupKey k l = some v) :
    countAuthority a (eraseKey k l) + (if v.authority = a then 1 else 0) =
      countAuthority a l := by
  obtain ⟨l1, l2, heq, herase, -⟩ := eraseKey_of_lookup h
  subst heq
  simp [herase, countAuthority, List.countP_append, List.countP_cons]
  omega

theorem countAuthority_pos {a : AccId} {k : TxHash} {v : AcceptedTransaction}
    {l : List (TxHash × AcceptedTransaction)} (hmem : (k, v) ∈ l)
    (ha : v.authority = a) : 0 < countAuthority a l := by
  rw [countAuthority, List.countP_pos_iff]
  exact ⟨(k, v), hmem, by simp [ha]⟩

/-! Characterizations of `check_tx`. -/

theorem checkTx_ok_iff {q : Queue} {tx : AcceptedTransaction} {sv : StateView}
    {timePadding : Nat} :
    q.checkTx tx sv timePadding = .ok () ↔
      q.isInFuture tx = false ∧ q.isExpired tx timePadding = false ∧
      tx.isInBlockchain sv = false ∧ tx.checkSignatureCondition sv = true := by
  cases hf : q.isInFuture tx <;> cases he : q.isExpired tx timePadding <;>
    cases hb : tx.isInBlockchain sv <;> cases hs : tx.checkSignatureCondition sv <;>
    simp [Queue.checkTx, hf, he, hb, hs]

theorem checkTx_error_infuture_iff {q : Queue} {tx : AcceptedTransaction}
    {sv : StateView} {timePadding : Nat} :
    q.checkTx tx sv timePadding = .error .InFuture ↔ q.isInFuture tx = true := by
  cases hf : q.isInFuture tx <;> cases he : q.isExpired tx timePadding <;>
    cases hb : tx.isInBlockchain sv <;> cases hs : tx.checkSignatureCondition sv <;>
    simp [Queue.checkTx, hf, he, hb, hs]

theorem checkTx_error_expired_iff {q : Queue} {tx : AcceptedTransaction}
    {sv : StateView} {timePadding : Nat} :
    q.checkTx tx sv timePadding = .error .Expired ↔
      q.isInFuture tx = false ∧ q.isExpired tx timePadding = true := by
  cases hf : q.isInFuture tx <;> cases he : q.isExpired tx timePadding <;>
    cases hb : tx.isInBlockchain sv <;> cases hs : tx.checkSignatureCondition sv <;>
    simp [Queue.checkTx, hf, he, hb, hs]

theorem checkTx_error_inblockchain_iff {q : Queue} {tx : AcceptedTransaction}
    {sv : StateView} {timePadding : Nat} :
    q.checkTx tx sv timePadding = .error .InBlockchain ↔
      q.isInFuture tx = false ∧ q.isExpired tx timePadding = false ∧
      tx.isInBlockchain sv = true := by
  cases hf : q.isInFuture tx <;> cases he : q.isExpired tx timePadding <;>
    cases hb : tx.isInBlockchain sv <;> cases hs : tx.checkSignatureCondition sv <;>
    simp [Queue.checkTx, hf, he, hb, hs]

theorem checkTx_error_signature_iff {q : Queue} {tx : AcceptedTransaction}
    {sv : StateView} {timePadding : Nat} :
    q.checkTx tx sv timePadding = .error .SignatureCondition ↔
      q.isInFuture tx = false ∧ q.isExpired tx timePadding = false ∧
      tx.isInBlockchain sv = false ∧ tx.checkSignatureCondition sv = false := by
  cases hf : q.isInFuture tx <;> cases he : q.isExpired tx timePadding <;>
    cases hb : tx.isInBlockchain sv <;> cases hs : tx.checkSignatureCondition sv <;>
    simp [Queue.checkTx, hf, he, hb, hs]

theorem checkTx_error_cases {q : Queue} {tx : AcceptedTransaction} {sv : StateView}
    {timePadding : Nat} {e : Error} (h : q.checkTx tx sv timePadding = .error e) :
    e = .InFuture ∨ e = .Expired ∨ e = .InBlockchain ∨ e = .SignatureCondition := by
  unfold Queue.checkTx at h
  split_ifs at h <;> simp_all

theorem checkTx_ne_ok_of_inBlockchain {q : Queue} {tx : AcceptedTransaction}
    {sv : StateView} {timePadding : Nat} (hb : tx.isInBlockchain sv = true) :
    q.checkTx tx sv timePadding ≠ .ok () := by
  rw [Ne, checkTx_ok_iff]
  simp [hb]

theorem checkTx_eq_of_fields {q q' : Queue} (h1 : q'.txTimeToLive = q.txTimeToLive)
    (h2 : q'.futureThreshold = q.futureThreshold) (h3 : q'.now = q.now)
    (tx : AcceptedTransaction) (sv : StateView) (timePadding : Nat) :
    q'.checkTx tx sv timePadding = q.checkTx tx sv timePadding := by
  simp [Queue.checkTx, Queue.isInFuture, Queue.isExpired, h1, h2, h3]

/-! Counter agreement between the body map and the per-user map. -/

theorem counterAgree_increase {q : Queue} {tx : AcceptedTransaction} {k : TxHash}
    {perUser : List (AccId × Nat)}
    (hagree : CounterAgree q.acceptedTxs q.txsPerUser)
    (h : q.checkAndIncreasePerUserTxCount tx.authority = .ok perUser) :
    CounterAgree ((k, tx) :: q.acceptedTxs) perUser := by
  intro a
  unfold Queue.checkAndIncreasePerUserTxCount at h
  rcases hl : lookupKey tx.authority q.txsPerUser with _ | n <;> simp only [hl] at h
  · injection h with h
    subst h
    have hc0 : countAuthority tx.authority q.acceptedTxs = 0 := by
      have := hagree tx.authority
      rw [hl] at this
      by_contra hne
      rw [if_neg hne] at this
      exact Option.noConfusion this
    by_cases ha : a = tx.authority
    · subst ha
      simp [lookupKey, countAuthority_cons, hc0]
    · have hne : ¬(tx.authority = a) := fun hc => ha hc.symm
      have h1 : lookupKey a ((tx.authority, 1) :: q.txsPerUser) = lookupKey a q.txsPerUser := by
        simp [lookupKey, hne]
      rw [h1, countAuthority_cons, if_neg hne, Nat.add_zero]
      exact hagree a
  · by_cases hcap : n ≥ q.capacityPerUser
    · rw [if_pos hcap] at h
      exact absurd h (by simp)
    · rw [if_neg hcap] at h
      injection h with h
      subst h
      have hn : countAuthority tx.authority q.acceptedTxs = n ∧ n ≠ 0 := by
        have := hagree tx.authority
        rw [hl] at this
        by_cases h0 : countAuthority tx.authority q.acceptedTxs = 0
        · rw [if_pos h0] at this
          exact Option.noConfusion this
        · rw [if_neg h0] at this
          injection this with hv
          exact ⟨hv.symm, fun hc => h0 (hv ▸ hc ▸ rfl)⟩
      by_cases ha : a = tx.authority
      · subst ha
        rw [lookupKey_updateKey_self, hl]
        simp [countAuthority_cons, hn.1]
      · rw [lookupKey_updateKey_ne ha]
        have hne : ¬(tx.authority = a) := fun hc => ha hc.symm
        rw [countAuthority_cons, if_neg hne, Nat.add_zero]
        exact hagree a

theorem counterAgree_decrease {body : List (TxHash × AcceptedTransaction)}
    {perUser : List (AccId × Nat)} {h : TxHash} {tx : AcceptedTransaction}
    (hagree : CounterAgree body perUser)
    (hndu : (perUser.map Prod.fst).Nodup)
    (hlk : lookupKey h body = some tx) :
    CounterAgree (eraseKey h body) (decreasePerUserTxCount tx.authority perUser) := by
  have hcpos : 0 < countAuthority tx.authority body :=
    countAuthority_pos (lookupKey_mem hlk) rfl
  have hlA : lookupKey tx.authority perUser = some (countAuthority tx.authority body) := by
    rw [hagree tx.authority, if_neg (by omega)]
  have herase : ∀ a, countAuthority a (eraseKey h body) +
      (if tx.authority = a then 1 else 0) = countAuthority a body :=
    fun a => countAuthority_eraseKey hlk
  intro a
  unfold decreasePerUserTxCount
  simp only [hlA]
  by_cases hc : countAuthority tx.authority body > 1
  · rw [if_pos hc]
    by_cases ha : a = tx.authority
    · subst ha
      rw [lookupKey_updateKey_self, hlA]
      have he := herase tx.authority
      rw [if_pos rfl] at he
      rw [if_neg (by omega)]
      have hmap : (some (countAuthority tx.authority body)).map
          (fun _ => countAuthority tx.authority body - 1) =
          some (countAuthority tx.authority body - 1) := rfl
      rw [hmap]
      congr 1
      omega
    · rw [lookupKey_updateKey_ne ha]
      have he := herase a
      rw [if_neg (fun hc' => ha hc'.symm), Nat.add_zero] at he
      rw [hagree a, he]
  · rw [if_neg hc]
    by_cases ha : a = tx.authority
    · subst ha
      rw [lookupKey_eraseKey_self hndu]
      have he := herase tx.authority
      rw [if_pos rfl] at he
      rw [if_pos (by omega)]
    · rw [lookupKey_eraseKey_ne ha]
      have he := herase a
      rw [if_neg (fun hc' => ha hc'.symm), Nat.add_zero] at he
      rw [hagree a, he]

theorem nodupUserKeys_decrease {a : AccId} {perUser : List (AccId × Nat)}
    (hnd : (perUser.map Prod.fst).Nodup) :
    ((decreasePerUserTxCount a perUser).map Prod.fst).Nodup := by
  unfold decreasePerUserTxCount
  rcases h : lookupKey a perUser with _ | c <;> simp only [h]
  · exact hnd
  · by_cases hc : c > 1
    · rw [if_pos hc, map_fst_updateKey]
      exact hnd
    · rw [if_neg hc]
      exact hnd.sublist ((eraseKey_sublist a perUser).map Prod.fst)

theorem perUserBound_decrease {a : AccId} {perUser : List (AccId × Nat)} {n : Nat}
    (hb : ∀ p ∈ perUser, p.2 ≤ n) :
    ∀ p ∈ decreasePerUserTxCount a perUser, p.2 ≤ n := by
  intro p hp
  unfold decreasePerUserTxCount at hp
  rcases h : lookupKey a perUser with _ | c <;> simp only [h] at hp
  · exact hb p hp
  · by_cases hc : c > 1
    · rw [if_pos hc] at hp
      rcases mem_updateKey hp with h1 | h1
      · have hcn : c ≤ n := hb _ (lookupKey_mem h)
        subst h1
        simp only
        omega
      · exact hb p h1
    · rw [if_neg hc] at hp
      exact hb p (mem_eraseKey hp)

theorem decrease_increase_cancel {q : Queue} {a : AccId} {perUser : List (AccId × Nat)}
    (hpos : ∀ p ∈ q.txsPerUser, 1 ≤ p.2)
    (h : q.checkAndIncreasePerUserTxCount a = .ok perUser) :
    decreasePerUserTxCount a perUser = q.txsPerUser := by
  unfold Queue.checkAndIncreasePerUserTxCount at h
  rcases hl : lookupKey a q.txsPerUser with _ | n <;> simp only [hl] at h
  · injection h with h
    subst h
    simp [decreasePerUserTxCount, lookupKey, eraseKey]
  · by_cases hcap : n ≥ q.capacityPerUser
    · rw [if_pos hcap] at h
      exact absurd h (by simp)
    · rw [if_neg hcap] at h
      injection h with h
      subst h
      have hn : 1 ≤ n := hpos _ (lookupKey_mem hl)
      unfold decreasePerUserTxCount
      rw [lookupKey_updateKey_self, hl]
      have hmap : (some n).map (fun _ => n + 1) = some (n + 1) := rfl
      rw [hmap]
      dsimp only
      rw [if_pos (by omega : n + 1 > 1)]
      have : n + 1 - 1 = n := by omega
      rw [this]
      exact updateKey_cancel hl

/-- A failed `push` leaves the queue untouched and returns the transaction
itself in the failure, provided every resident per-user counter is positive
(which holds in every reachable state). -/
theorem push_fail_state {q : Queue} {tx : AcceptedTransaction} {sv : StateView}
    {f : Failure} (hpos : ∀ p ∈ q.txsPerUser, 1 ≤ p.2)
    (h : (q.push tx sv).1 = .error f) :
    (q.push tx sv).2 = q ∧ f.tx = tx := by
  unfold Queue.push at h ⊢
  cases hc : q.checkTx tx sv 0 with
  | error err =>
    simp only [hc] at h ⊢
    refine ⟨by trivial, ?_⟩
    have : Failure.mk tx err = f := by simpa using h
    rw [← this]
  | ok u =>
    simp only [hc] at h ⊢
    rcases hl : lookupKey tx.hash q.acceptedTxs with _ | v <;> simp only [hl] at h ⊢
    · by_cases hcap : q.acceptedTxs.length ≥ q.capacity
      · rw [if_pos hcap] at h ⊢
        refine ⟨by trivial, ?_⟩
        have : Failure.mk tx .Full = f := by simpa using h
        rw [← this]
      · rw [if_neg hcap] at h ⊢
        cases hinc : q.checkAndIncreasePerUserTxCount tx.authority with
        | error err =>
          simp only [hinc] at h ⊢
          refine ⟨by trivial, ?_⟩
          have : Failure.mk tx err = f := by simpa using h
          rw [← this]
        | ok perUser =>
          simp only [hinc] at h ⊢
          by_cases hring : q.txHashes.length ≥ q.capacity
          · rw [if_pos hring] at h ⊢
            constructor
            · show ({ q with
                acceptedTxs := eraseKey tx.hash ((tx.hash, tx) :: q.acceptedTxs),
                txsPerUser := decreasePerUserTxCount tx.authority perUser } : Queue) = q
              rw [decrease_increase_cancel hpos hinc]
              simp [eraseKey]
            · have : Failure.mk tx .Full = f := by simpa using h
              rw [← this]
          · rw [if_neg hring] at h
            exact absurd h (by simp)
    · refine ⟨by trivial, ?_⟩
      have : Failure.mk tx .IsInQueue = f := by simpa using h
      rw [← this]

theorem Inv.perUserPos {q : Queue} (hq : Inv q) : ∀ p ∈ q.txsPerUser, 1 ≤ p.2 := by
  intro p hp
  have hl : lookupKey p.1 q.txsPerUser = some p.2 :=
    mem_lookupKey (by simpa using hp) hq.nodupUserKeys
  have hag := hq.counterAgree p.1
  rw [hl] at hag
  by_cases h0 : countAuthority p.1 q.acceptedTxs = 0
  · rw [if_pos h0] at hag
    exact absurd hag (by simp)
  · rw [if_neg h0] at hag
    injection hag with hv
    omega

/-- A successful `push` went through every gate and produced exactly the
inserted state. -/
theorem push_ok_state {q : Queue} {tx : AcceptedTransaction} {sv : StateView}
    (h : (q.push tx sv).1 = .ok ()) :
    q.checkTx tx sv 0 = .ok () ∧
    lookupKey tx.hash q.acceptedTxs = none ∧
    q.acceptedTxs.length < q.capacity ∧
    q.txHashes.length < q.capacity ∧
    ∃ perUser, q.checkAndIncreasePerUserTxCount tx.authority = .ok perUser ∧
      (q.push tx sv).2 = { q with
        acceptedTxs := (tx.hash, tx) :: q.acceptedTxs,
        txsPerUser := perUser,
        txHashes := q.txHashes ++ [tx.hash],
        events := q.events ++
          [{ hash := tx.hash, blockHeight := none,
             status := TransactionStatus.Queued }] } := by
  have h' := h
  unfold Queue.push at h'
  cases hc : q.checkTx tx sv 0 with
  | error err => simp [hc] at h'
  | ok u =>
    cases u
    simp only [hc] at h'
    rcases hl : lookupKey tx.hash q.acceptedTxs with _ | v <;> simp only [hl] at h'
    · by_cases hcap : q.acceptedTxs.length ≥ q.capacity
      · rw [if_pos hcap] at h'
        simp at h'
      · rw [if_neg hcap] at h'
        cases hinc : q.checkAndIncreasePerUserTxCount tx.authority with
        | error err => simp only [hinc] at h'; simp at h'
        | ok perUser =>
          simp only [hinc] at h'
          by_cases hring : q.txHashes.length ≥ q.capacity
          · rw [if_pos hring] at h'
            simp at h'
          · refine ⟨rfl, rfl, by omega, by omega, perUser, rfl, ?_⟩
            unfold Queue.push
            simp only [hc, hl, hinc]
            rw [if_neg hcap, if_neg hring]
    · simp at h'

theorem nodupUserKeys_increase {q : Queue} {a : AccId} {perUser : List (AccId × Nat)}
    (hnd : (q.txsPerUser.map Prod.fst).Nodup)
    (h : q.checkAndIncreasePerUserTxCount a = .ok perUser) :
    (perUser.map Prod.fst).Nodup := by
  unfold Queue.checkAndIncreasePerUserTxCount at h
  rcases hl : lookupKey a q.txsPerUser with _ | n <;> simp only [hl] at h
  · injection h with h
    subst h
    simp only [List.map_cons, List.nodup_cons]
    exact ⟨lookupKey_eq_none.mp hl, hnd⟩
  · by_cases hcap : n ≥ q.capacityPerUser
    · rw [if_pos hcap] at h
      exact absurd h (by simp)
    · rw [if_neg hcap] at h
      injection h with h
      subst h
      rw [map_fst_updateKey]
      exact hnd

theorem perUserBound_increase {q : Queue} {a : AccId} {perUser : List (AccId × Nat)}
    (hpos : 0 < q.capacityPerUser)
    (hb : ∀ p ∈ q.txsPerUser, p.2 ≤ q.capacityPerUser)
    (h : q.checkAndIncreasePerUserTxCount a = .ok perUser) :
    ∀ p ∈ perUser, p.2 ≤ q.capacityPerUser := by
  unfold Queue.checkAndIncreasePerUserTxCount at h
  rcases hl : lookupKey a q.txsPerUser with _ | n <;> simp only [hl] at h
  · injection h with h
    subst h
    intro p hp
    rcases List.mem_cons.mp hp with hp1 | hp1
    · subst hp1
      exact hpos
    · exact hb p hp1
  · by_cases hcap : n ≥ q.capacityPerUser
    · rw [if_pos hcap] at h
      exact absurd h (by simp)
    · rw [if_neg hcap] at h
      injection h with h
      subst h
      intro p hp
      rcases mem_updateKey hp with hp1 | hp1
      · subst hp1
        simp only
        omega
      · exact hb p hp1

/-- `push` preserves the reachable-state invariant. -/
theorem push_inv {q : Queue} {tx : AcceptedTransaction} {sv : StateView}
    (hq : Inv q) : Inv (q.push tx sv).2 := by
  rcases hr : (q.push tx sv).1 with f | u
  · rw [(push_fail_state hq.perUserPos hr).1]
    exact hq
  · cases u
    obtain ⟨hc, hl, hcap, hring, perUser, hinc, hstate⟩ := push_ok_state hr
    rw [hstate]
    have hnotin : tx.hash ∉ q.txHashes := by
      intro hmem
      have := hq.hashesHaveEntry tx.hash hmem
      rw [hl] at this
      exact absurd this (by simp)
    refine ⟨?_, ?_, ?_, ?_, ?_, ?_, ?_, ?_, ?_, hq.capPos, hq.capPerUserPos⟩
    · simp only [List.nodup_append, List.nodup_cons, List.nodup_nil]
      exact ⟨hq.nodupHashes, ⟨by simp, by simp⟩, by
        intro x hx hx'
        simp only [List.mem_singleton] at hx'
        exact hnotin (hx' ▸ hx)⟩
    · intro h hmem
      rcases List.mem_append.mp hmem with hmem1 | hmem1
      · by_cases hh : tx.hash = h
        · simp [lookupKey, hh]
        · simp only [lookupKey, hh, if_neg, not_false_iff]
          exact hq.hashesHaveEntry h hmem1
      · simp only [List.mem_singleton] at hmem1
        simp [lookupKey, hmem1]
    · simp only [List.map_cons, List.nodup_cons]
      exact ⟨lookupKey_eq_none.mp hl, hq.nodupKeys⟩
    · intro p hp
      rcases List.mem_cons.mp hp with hp1 | hp1
      · subst hp1
        rfl
      · exact hq.keyIsHash p hp1
    · exact counterAgree_increase (q := q) hq.counterAgree hinc
    · exact nodupUserKeys_increase (q := q) hq.nodupUserKeys hinc
    · exact perUserBound_increase (q := q) hq.capPerUserPos hq.perUserBound hinc
    · show ((tx.hash, tx) :: q.acceptedTxs).length ≤ q.capacity
      simp only [List.length_cons]
      omega
    · show (q.txHashes ++ [tx.hash]).length ≤ q.capacity
      simp only [List.length_append, List.length_cons, List.length_nil]
      omega

theorem initQueue_inv {c cpu ttl fut now : Nat} (hc : 0 < c) (hcpu : 0 < cpu) :
    Inv (initQueue c cpu ttl fut now) := by
  refine ⟨by simp [initQueue], by simp [initQueue], by simp [initQueue],
    by simp [initQueue], ?_, by simp [initQueue], by simp [initQueue],
    by simp [initQueue], by simp [initQueue], hc, hcpu⟩
  intro a
  simp [initQueue, countAuthority, lookupKey]

theorem tick_inv {q : Queue} {t : Nat} (hq : Inv q) : Inv { q with now := t } :=
  { nodupHashes := hq.nodupHashes
    hashesHaveEntry := hq.hashesHaveEntry
    nodupKeys := hq.nodupKeys
    keyIsHash := hq.keyIsHash
    counterAgree := hq.counterAgree
    nodupUserKeys := hq.nodupUserKeys
    perUserBound := hq.perUserBound
    bodyLen := hq.bodyLen
    orderLen := hq.orderLen
    capPos := hq.capPos
    capPerUserPos := hq.capPerUserPos }

/-! Drain-loop machinery. -/

theorem DrainInv.step_err {q : Queue} {h : TxHash} {rest seen : List TxHash}
    {body : List (TxHash × AcceptedTransaction)} {perUser : List (AccId × Nat)}
    {tx : AcceptedTransaction}
    (hInv : DrainInv q ((h :: rest) ++ seen) body perUser)
    (hlk : lookupKey h body = some tx) :
    DrainInv q (rest ++ seen) (eraseKey h body)
      (decreasePerUserTxCount tx.authority perUser) := by
  obtain ⟨hnd, hent, hndk, hkh, hag, hndu, hpb, hbl, hhl⟩ := hInv
  rw [List.cons_append, List.nodup_cons] at hnd
  refine ⟨hnd.2, ?_, ?_, ?_, ?_, ?_, ?_, ?_, ?_⟩
  · intro x hx
    have hne : x ≠ h := fun hc => hnd.1 (hc ▸ hx)
    rw [lookupKey_eraseKey_ne hne]
    exact hent x (List.mem_cons_of_mem _ hx)
  · exact hndk.sublist ((eraseKey_sublist h body).map Prod.fst)
  · exact fun p hp => hkh p (mem_eraseKey hp)
  · exact counterAgree_decrease hag hndu hlk
  · exact nodupUserKeys_decrease hndu
  · exact perUserBound_decrease hpb
  · exact le_trans (eraseKey_sublist h body).length_le hbl
  · simp only [List.length_append, List.cons_append, List.length_cons] at hhl ⊢
    omega

theorem DrainInv.step_ok {q : Queue} {h : TxHash} {rest seen : List TxHash}
    {body : List (TxHash × AcceptedTransaction)} {perUser : List (AccId × Nat)}
    (hInv : DrainInv q ((h :: rest) ++ seen) body perUser) :
    DrainInv q (rest ++ (seen ++ [h])) body perUser := by
  obtain ⟨hnd, hent, hndk, hkh, hag, hndu, hpb, hbl, hhl⟩ := hInv
  have hperm : List.Perm ((h :: rest) ++ seen) (rest ++ (seen ++ [h])) := by
    rw [List.cons_append, ← List.append_assoc]
    exact (List.perm_append_singleton h (rest ++ seen)).symm
  exact ⟨hperm.nodup_iff.mp hnd, fun x hx => hent x (hperm.mem_iff.mpr hx),
    hndk, hkh, hag, hndu, hpb, hbl, hperm.length_eq ▸ hhl⟩

theorem lookupKey_eraseKey_none {α : Type} {k k' : Nat} {l : List (Nat × α)}
    (h : lookupKey k l = none) : lookupKey k (eraseKey k' l) = none := by
  rw [lookupKey_eq_none] at h ⊢
  exact fun hc => h (((eraseKey_sublist k' l).map Prod.fst).mem hc)

/-- The drain loop preserves the loop invariant, stated for the final
ring content (untouched remainder followed by the seen hashes). -/
theorem drainGo_inv (q : Queue) (sv : StateView) (timePadding : Nat)
    (dedup : List TxHash) :
    ∀ (hashes : List TxHash) (need : Nat) body perUser out seen expired
      (r : DrainOut),
      drainGo q sv timePadding dedup need hashes body perUser out seen expired = r →
      DrainInv q (hashes ++ seen) body perUser →
      DrainInv q (r.remaining ++ r.seen) r.body r.perUser := by
  intro hashes
  induction hashes with
  | nil =>
    intro need body perUser out seen expired r hr hInv
    simp only [drainGo] at hr
    subst hr
    simpa using hInv
  | cons h rest ih =>
    intro need body perUser out seen expired r hr hInv
    rcases need with _ | need
    · simp only [drainGo] at hr
      subst hr
      exact hInv
    · simp only [drainGo] at hr
      cases hlk : lookupKey h body with
      | none =>
        have hent := hInv.haveEntry h (by simp)
        rw [hlk] at hent
        exact absurd hent (by simp)
      | some tx =>
        simp only [hlk] at hr
        cases hc : q.checkTx tx sv timePadding with
        | error e =>
          simp only [hc] at hr
          exact ih (need + 1) _ _ out seen _ r hr (hInv.step_err hlk)
        | ok u =>
          simp only [hc] at hr
          by_cases hd : tx.hash ∈ dedup
          · rw [if_pos hd] at hr
            exact ih (need + 1) body perUser out (seen ++ [h]) expired r hr hInv.step_ok
          · rw [if_neg hd] at hr
            exact ih need body perUser (out ++ [tx]) (seen ++ [h]) expired r hr hInv.step_ok

/-- The drain loop only appends to the output vector, and everything it
appends passed the check. -/
theorem drainGo_out_append (q : Queue) (sv : StateView) (timePadding : Nat)
    (dedup : List TxHash) :
    ∀ (hashes : List TxHash) (need : Nat) body perUser out seen expired
      (r : DrainOut),
      drainGo q sv timePadding dedup need hashes body perUser out seen expired = r →
      ∃ ap, r.out = out ++ ap ∧ ∀ t ∈ ap, q.checkTx t sv timePadding = .ok () := by
  intro hashes
  induction hashes with
  | nil =>
    intro need body perUser out seen expired r hr
    simp only [drainGo] at hr
    subst hr
    exact ⟨[], by simp, by simp⟩
  | cons h rest ih =>
    intro need body perUser out seen expired r hr
    rcases need with _ | need
    · simp only [drainGo] at hr
      subst hr
      exact ⟨[], by simp, by simp⟩
    · simp only [drainGo] at hr
      cases hlk : lookupKey h body with
      | none =>
        simp only [hlk] at hr
        exact ih (need + 1) body perUser out seen expired r hr
      | some tx =>
        simp only [hlk] at hr
        cases hc : q.checkTx tx sv timePadding with
        | error e =>
          simp only [hc] at hr
          exact ih (need + 1) _ _ out seen _ r hr
        | ok u =>
          simp only [hc] at hr
          by_cases hd : tx.hash ∈ dedup
          · rw [if_pos hd] at hr
            exact ih (need + 1) body perUser out (seen ++ [h]) expired r hr
          · rw [if_neg hd] at hr
            obtain ⟨ap, hap, hok⟩ := ih need body perUser (out ++ [tx]) (seen ++ [h]) expired r hr
            refine ⟨tx :: ap, ?_, ?_⟩
            · rw [hap, List.append_assoc]
              rfl
            · intro t ht
              rcases List.mem_cons.mp ht with rfl | ht
              · cases u
                exact hc
              · exact hok t ht

/-- Frame facts of the drain loop: the remainder comes from the ring, seen
hashes come from the previous seen list or the ring, the seen and expired
lists only grow, absent body keys stay absent, body entries whose key is not
in the ring are untouched, and every expired transaction was a body entry. -/
theorem drainGo_frame (q : Queue) (sv : StateView) (timePadding : Nat)
    (dedup : List TxHash) :
    ∀ (hashes : List TxHash) (need : Nat) body perUser out seen expired
      (r : DrainOut),
      drainGo q sv timePadding dedup need hashes body perUser out seen expired = r →
      (∀ x ∈ r.remaining, x ∈ hashes) ∧
      (∀ x ∈ r.seen, x ∈ seen ∨ x ∈ hashes) ∧
      (∃ s2, r.seen = seen ++ s2) ∧
      (∃ ex, r.expired = expired ++ ex) ∧
      (∀ k, lookupKey k body = none → lookupKey k r.body = none) ∧
      (∀ k v, k ∉ hashes → lookupKey k body = some v → lookupKey k r.body = some v) ∧
      (∀ t ∈ r.expired, t ∈ expired ∨ ∃ k, (k, t) ∈ body) := by
  intro hashes
  induction hashes with
  | nil =>
    intro need body perUser out seen expired r hr
    simp only [drainGo] at hr
    subst hr
    exact ⟨by simp, fun x hx => Or.inl hx, ⟨[], by simp⟩, ⟨[], by simp⟩,
      fun k hk => hk, fun k v _ hk => hk, fun t ht => Or.inl ht⟩
  | cons h rest ih =>
    intro need body perUser out seen expired r hr
    rcases need with _ | need
    · simp only [drainGo] at hr
      subst hr
      exact ⟨fun x hx => hx, fun x hx => Or.inl hx, ⟨[], by simp⟩, ⟨[], by simp⟩,
        fun k hk => hk, fun k v _ hk => hk, fun t ht => Or.inl ht⟩
    · simp only [drainGo] at hr
      cases hlk : lookupKey h body with
      | none =>
        simp only [hlk] at hr
        obtain ⟨f1, f2, f3, f4, f5, f6, f7⟩ := ih (need + 1) body perUser out seen expired r hr
        exact ⟨fun x hx => List.mem_cons_of_mem _ (f1 x hx),
          fun x hx => (f2 x hx).imp id (List.mem_cons_of_mem _),
          f3, f4, f5,
          fun k v hk => f6 k v (fun hc => hk (List.mem_cons_of_mem _ hc)),
          f7⟩
      | some tx =>
        simp only [hlk] at hr
        cases hc : q.checkTx tx sv timePadding with
        | error e =>
          simp only [hc] at hr
          obtain ⟨f1, f2, f3, f4, f5, f6, f7⟩ :=
            ih (need + 1) (eraseKey h body) (decreasePerUserTxCount tx.authority perUser)
              out seen (if e = Error.Expired then expired ++ [tx] else expired) r hr
          refine ⟨fun x hx => List.mem_cons_of_mem _ (f1 x hx),
            fun x hx => (f2 x hx).imp id (List.mem_cons_of_mem _),
            f3, ?_, ?_, ?_, ?_⟩
          · obtain ⟨ex, hex⟩ := f4
            by_cases he : e = Error.Expired
            · rw [if_pos he] at hex
              exact ⟨tx :: ex, by rw [hex, List.append_assoc]; rfl⟩
            · rw [if_neg he] at hex
              exact ⟨ex, hex⟩
          · exact fun k hk => f5 k (lookupKey_eraseKey_none hk)
          · intro k v hk hkv
            have hne : k ≠ h := fun hc => hk (hc ▸ List.mem_cons_self h rest)
            exact f6 k v (fun hc => hk (List.mem_cons_of_mem _ hc))
              (by rw [lookupKey_eraseKey_ne hne]; exact hkv)
          · intro t ht
            rcases f7 t ht with ht1 | ht1
            · by_cases he : e = Error.Expired
              · rw [if_pos he] at ht1
                rcases List.mem_append.mp ht1 with ht2 | ht2
                · exact Or.inl ht2
                · simp only [List.mem_singleton] at ht2
                  exact Or.inr ⟨h, ht2 ▸ lookupKey_mem hlk⟩
              · rw [if_neg he] at ht1
                exact Or.inl ht1
            · obtain ⟨k, hk⟩ := ht1
              exact Or.inr ⟨k, mem_eraseKey hk⟩
        | ok u =>
          simp only [hc] at hr
          have hstep : ∀ out' , drainGo q sv timePadding dedup
                (if tx.hash ∈ dedup then need + 1 else need) rest body perUser out'
                (seen ++ [h]) expired = r →
              (∀ x ∈ r.remaining, x ∈ h :: rest) ∧
              (∀ x ∈ r.seen, x ∈ seen ∨ x ∈ h :: rest) ∧
              (∃ s2, r.seen = seen ++ s2) ∧
              (∃ ex, r.expired = expired ++ ex) ∧
              (∀ k, lookupKey k body = none → lookupKey k r.body = none) ∧
              (∀ k v, k ∉ h :: rest → lookupKey k body = some v →
                lookupKey k r.body = some v) ∧
              (∀ t ∈ r.expired, t ∈ expired ∨ ∃ k, (k, t) ∈ body) := by
            intro out' hr'
            obtain ⟨f1, f2, f3, f4, f5, f6, f7⟩ :=
              ih (if tx.hash ∈ dedup then need + 1 else need) body perUser out'
                (seen ++ [h]) expired r hr'
            refine ⟨fun x hx => List.mem_cons_of_mem _ (f1 x hx), ?_, ?_, f4, f5,
              fun k v hk => f6 k v (fun hc => hk (List.mem_cons_of_mem _ hc)), f7⟩
            · intro x hx
              rcases f2 x hx with hx1 | hx1
              · rcases List.mem_append.mp hx1 with hx2 | hx2
                · exact Or.inl hx2
                · simp only [List.mem_singleton] at hx2
                  exact Or.inr (hx2 ▸ List.mem_cons_self h rest)
              · exact Or.inr (List.mem_cons_of_mem _ hx1)
            · obtain ⟨s2, hs2⟩ := f3
              exact ⟨h :: s2, by rw [hs2, List.append_assoc]; rfl⟩
          by_cases hd : tx.hash ∈ dedup
          · rw [if_pos hd] at hr
            exact hstep out (by rw [if_pos hd]; exact hr)
          · rw [if_neg hd] at hr
            exact hstep (out ++ [tx]) (by rw [if_neg hd]; exact hr)

theorem perm_shift {α : Type} (h : α) (rest seen : List α) :
    List.Perm ((h :: rest) ++ seen) (rest ++ (seen ++ [h])) := by
  rw [List.cons_append, ← List.append_assoc]
  exact (List.perm_append_singleton h (rest ++ seen)).symm

/-- A transaction that passes the check keeps its body entry through the drain
and its fingerprint stays in the ring (either unpopped or seen). -/
theorem drainGo_track_ok (q : Queue) (sv : StateView) (timePadding : Nat)
    (dedup : List TxHash) :
    ∀ (hashes : List TxHash) (need : Nat) body perUser out seen expired
      (r : DrainOut) (h : TxHash) (tx : AcceptedTransaction),
      drainGo q sv timePadding dedup need hashes body perUser out seen expired = r →
      (hashes ++ seen).Nodup →
      lookupKey h body = some tx →
      h ∈ hashes →
      q.checkTx tx sv timePadding = .ok () →
      lookupKey h r.body = some tx ∧ h ∈ r.remaining ++ r.seen := by
  intro hashes
  induction hashes with
  | nil =>
    intro need body perUser out seen expired r h tx hr hnd hlk hmem hok
    simp at hmem
  | cons h' rest ih =>
    intro need body perUser out seen expired r h tx hr hnd hlk hmem hok
    rcases need with _ | need
    · simp only [drainGo] at hr
      subst hr
      exact ⟨hlk, List.mem_append.mpr (Or.inl hmem)⟩
    · simp only [drainGo] at hr
      by_cases hh : h' = h
      · subst hh
        rw [hlk] at hr
        simp only [] at hr
        rw [hok] at hr
        simp only [] at hr
        have hnotrest : h' ∉ rest ++ seen := by
          rw [List.cons_append, List.nodup_cons] at hnd
          exact hnd.1
        have happly : ∀ need' out',
            drainGo q sv timePadding dedup need' rest body perUser out'
              (seen ++ [h']) expired = r →
            lookupKey h' r.body = some tx ∧ h' ∈ r.remaining ++ r.seen := by
          intro need' out' hr'
          obtain ⟨f1, f2, f3, f4, f5, f6, f7⟩ :=
            drainGo_frame q sv timePadding dedup rest need' body perUser out'
              (seen ++ [h']) expired r hr'
          constructor
          · exact f6 h' tx (fun hc => hnotrest (List.mem_append.mpr (Or.inl hc))) hlk
          · obtain ⟨s2, hs2⟩ := f3
            refine List.mem_append.mpr (Or.inr ?_)
            rw [hs2]
            simp
        by_cases hd : tx.hash ∈ dedup
        · rw [if_pos hd] at hr
          exact happly (need + 1) out hr
        · rw [if_neg hd] at hr
          exact happly need (out ++ [tx]) hr
      · have hmem' : h ∈ rest := by
          rcases List.mem_cons.mp hmem with hc | hc
          · exact absurd hc.symm hh
          · exact hc
        cases hlk' : lookupKey h' body with
        | none =>
          simp only [hlk'] at hr
          exact ih (need + 1) body perUser out seen expired r h tx hr
            (by rw [List.cons_append, List.nodup_cons] at hnd; exact hnd.2)
            hlk hmem' hok
        | some tx' =>
          simp only [hlk'] at hr
          cases hc : q.checkTx tx' sv timePadding with
          | error e =>
            simp only [hc] at hr
            exact ih (need + 1) _ _ out seen _ r h tx hr
              (by rw [List.cons_append, List.nodup_cons] at hnd; exact hnd.2)
              (by rw [lookupKey_eraseKey_ne (fun hc' => hh hc'.symm)]; exact hlk)
              hmem' hok
          | ok u =>
            simp only [hc] at hr
            have hnd' : (rest ++ (seen ++ [h'])).Nodup :=
              ((perm_shift h' rest seen).nodup_iff).mp hnd
            by_cases hd : tx'.hash ∈ dedup
            · rw [if_pos hd] at hr
              exact ih (need + 1) body perUser out (seen ++ [h']) expired r h tx hr
                hnd' hlk hmem' hok
            · rw [if_neg hd] at hr
              exact ih need body perUser (out ++ [tx']) (seen ++ [h']) expired r h tx hr
                hnd' hlk hmem' hok

/-- A transaction in the ring whose check fails is, after the drain, either
untouched (the loop stopped before popping it) or dropped: its body entry is
removed, its fingerprint does not return to the ring, and it joins the expired
batch exactly when its failure reason is `Expired`. -/
theorem drainGo_track_err (q : Queue) (sv : StateView) (timePadding : Nat)
    (dedup : List TxHash) :
    ∀ (hashes : List TxHash) (need : Nat) body perUser out seen expired
      (r : DrainOut) (h : TxHash) (tx : AcceptedTransaction) (e : Error),
      drainGo q sv timePadding dedup need hashes body perUser out seen expired = r →
      (hashes ++ seen).Nodup →
      (body.map Prod.fst).Nodup →
      (∀ p ∈ body, p.1 = p.2.hash) →
      lookupKey h body = some tx →
      h ∈ hashes →
      q.checkTx tx sv timePadding = .error e →
      (h ∈ r.remaining ∧ lookupKey h r.body = some tx ∧
        (tx ∈ r.expired ↔ tx ∈ expired)) ∨
      (h ∉ r.remaining ++ r.seen ∧ lookupKey h r.body = none ∧
        (tx ∈ r.expired ↔ (e = Error.Expired ∨ tx ∈ expired))) := by
  intro hashes
  induction hashes with
  | nil =>
    intro need body perUser out seen expired r h tx e hr hnd hndk hkh hlk hmem herr
    simp at hmem
  | cons h' rest ih =>
    intro need body perUser out seen expired r h tx e hr hnd hndk hkh hlk hmem herr
    have hhash : h = tx.hash := hkh (h, tx) (lookupKey_mem hlk)
    rcases need with _ | need
    · simp only [drainGo] at hr
      subst hr
      exact Or.inl ⟨hmem, hlk, Iff.rfl⟩
    · simp only [drainGo] at hr
      by_cases hh : h' = h
      · subst hh
        rw [hlk] at hr
        simp only [] at hr
        rw [herr] at hr
        simp only [] at hr
        have hnotrest : h' ∉ rest ++ seen := by
          rw [List.cons_append, List.nodup_cons] at hnd
          exact hnd.1
        obtain ⟨f1, f2, f3, f4, f5, f6, f7⟩ :=
          drainGo_frame q sv timePadding dedup rest (need + 1) (eraseKey h' body)
            (decreasePerUserTxCount tx.authority perUser) out seen
            (if e = Error.Expired then expired ++ [tx] else expired) r hr
        refine Or.inr ⟨?_, ?_, ?_, ?_⟩
        · intro hc
          rcases List.mem_append.mp hc with hc1 | hc1
          · exact hnotrest (List.mem_append.mpr (Or.inl (f1 h' hc1)))
          · rcases f2 h' hc1 with hc2 | hc2
            · exact hnotrest (List.mem_append.mpr (Or.inr hc2))
            · exact hnotrest (List.mem_append.mpr (Or.inl hc2))
        · exact f5 h' (lookupKey_eraseKey_self hndk)
        · -- forward: an expired occurrence of tx comes from the new batch entry
          intro htx
          rcases f7 tx htx with ht1 | ht1
          · by_cases he : e = Error.Expired
            · exact Or.inl he
            · rw [if_neg he] at ht1
              exact Or.inr ht1
          · obtain ⟨k, hk⟩ := ht1
            have hkeq : k = tx.hash := hkh (k, tx) (mem_eraseKey hk)
            have hker : lookupKey k (eraseKey h' body) = none := by
              rw [hkeq, ← hhash]
              exact lookupKey_eraseKey_self hndk
            have hmapmem : k ∈ (eraseKey h' body).map Prod.fst :=
              List.mem_map_of_mem Prod.fst hk
            exact absurd hmapmem (lookupKey_eq_none.mp hker)
        · intro htx
          obtain ⟨ex, hex⟩ := f4
          rcases htx with he | htx
          · rw [hex, if_pos he]
            simp
          · rw [hex]
            by_cases he : e = Error.Expired
            · rw [if_pos he]
              simp [htx]
            · rw [if_neg he]
              simp [htx]
      · have hmem' : h ∈ rest := by
          rcases List.mem_cons.mp hmem with hc | hc
          · exact absurd hc.symm hh
          · exact hc
        cases hlk' : lookupKey h' body with
        | none =>
          simp only [hlk'] at hr
          exact ih (need + 1) body perUser out seen expired r h tx e hr
            (by rw [List.cons_append, List.nodup_cons] at hnd; exact hnd.2)
            hndk hkh hlk hmem' herr
        | some tx' =>
          simp only [hlk'] at hr
          have htxne : tx ≠ tx' := by
            intro hcontra
            have hhash' : h' = tx'.hash := hkh (h', tx') (lookupKey_mem hlk')
            rw [← hcontra, ← hhash] at hhash'
            exact hh hhash'
          cases hc : q.checkTx tx' sv timePadding with
          | error e' =>
            simp only [hc] at hr
            have hexp : tx ∈ (if e' = Error.Expired then expired ++ [tx'] else expired)
                ↔ tx ∈ expired := by
              by_cases he' : e' = Error.Expired
              · rw [if_pos he']
                simp [htxne]
              · rw [if_neg he']
            have := ih (need + 1) (eraseKey h' body)
              (decreasePerUserTxCount tx'.authority perUser) out seen
              (if e' = Error.Expired then expired ++ [tx'] else expired) r h tx e hr
              (by rw [List.cons_append, List.nodup_cons] at hnd; exact hnd.2)
              (hndk.sublist ((eraseKey_sublist h' body).map Prod.fst))
              (fun p hp => hkh p (mem_eraseKey hp))
              (by rw [lookupKey_eraseKey_ne (fun hc' => hh hc'.symm)]; exact hlk)
              hmem' herr
            rcases this with ⟨g1, g2, g3⟩ | ⟨g1, g2, g3⟩
            · exact Or.inl ⟨g1, g2, g3.trans hexp⟩
            · refine Or.inr ⟨g1, g2, g3.trans ?_⟩
              rw [hexp]
          | ok u =>
            simp only [hc] at hr
            have hnd' : (rest ++ (seen ++ [h'])).Nodup :=
              ((perm_shift h' rest seen).nodup_iff).mp hnd
            by_cases hd : tx'.hash ∈ dedup
            · rw [if_pos hd] at hr
              exact ih (need + 1) body perUser out (seen ++ [h']) expired r h tx e hr
                hnd' hndk hkh hlk hmem' herr
            · rw [if_neg hd] at hr
              exact ih need body perUser (out ++ [tx']) (seen ++ [h']) expired r h tx e hr
                hnd' hndk hkh hlk hmem' herr

/-- A full-size drain with an empty deduplication set returns every resident
transaction that passes the check. -/
theorem drainGo_complete (q : Queue) (sv : StateView) (timePadding : Nat) :
    ∀ (hashes : List TxHash) (need : Nat) body perUser out seen expired
      (r : DrainOut) (h : TxHash) (tx : AcceptedTransaction),
      drainGo q sv timePadding [] need hashes body perUser out seen expired = r →
      hashes.Nodup →
      hashes.length ≤ need →
      lookupKey h body = some tx →
      h ∈ hashes →
      q.checkTx tx sv timePadding = .ok () →
      tx ∈ r.out := by
  intro hashes
  induction hashes with
  | nil =>
    intro need body perUser out seen expired r h tx hr hnd hneed hlk hmem hok
    simp at hmem
  | cons h' rest ih =>
    intro need body perUser out seen expired r h tx hr hnd hneed hlk hmem hok
    rcases need with _ | need
    · simp at hneed
    · simp only [drainGo] at hr
      by_cases hh : h' = h
      · subst hh
        rw [hlk] at hr
        simp only [] at hr
        rw [hok] at hr
        simp only [] at hr
        rw [if_neg (by simp : ¬(tx.hash ∈ ([] : List TxHash)))] at hr
        obtain ⟨ap, hap, -⟩ :=
          drainGo_out_append q sv timePadding [] rest need body perUser
            (out ++ [tx]) (seen ++ [h']) expired r hr
        rw [hap]
        simp
      · have hmem' : h ∈ rest := by
          rcases List.mem_cons.mp hmem with hc | hc
          · exact absurd hc.symm hh
          · exact hc
        rw [List.nodup_cons] at hnd
        simp only [List.length_cons] at hneed
        cases hlk' : lookupKey h' body with
        | none =>
          simp only [hlk'] at hr
          exact ih (need + 1) body perUser out seen expired r h tx hr hnd.2
            (by omega) hlk hmem' hok
        | some tx' =>
          simp only [hlk'] at hr
          cases hc : q.checkTx tx' sv timePadding with
          | error e =>
            simp only [hc] at hr
            exact ih (need + 1) _ _ out seen _ r h tx hr hnd.2 (by omega)
              (by rw [lookupKey_eraseKey_ne (fun hc' => hh hc'.symm)]; exact hlk)
              hmem' hok
          | ok u =>
            simp only [hc] at hr
            rw [if_neg (by simp : ¬(tx'.hash ∈ ([] : List TxHash)))] at hr
            exact ih need body perUser (out ++ [tx']) (seen ++ [h']) expired r h tx hr
              hnd.2 (by omega) hlk hmem' hok

/-- Refinement: on states whose ring has no duplicate fingerprints and whose
body keys are the transaction fingerprints, the fixed deduplication set of the
code behaves exactly like the growing deduplication set the specification
describes. -/
theorem drainGo_spec_eq (q : Queue) (sv : StateView) (timePadding : Nat) :
    ∀ (hashes : List TxHash) (need : Nat) body perUser
      (out : List AcceptedTransaction) seen expired (dedup : List TxHash),
      hashes.Nodup →
      (∀ p ∈ body, p.1 = p.2.hash) →
      (∀ t ∈ out, t.hash ∈ dedup ∨ t.hash ∉ hashes) →
      (∀ x ∈ dedup, x ∈ out.map AcceptedTransaction.hash) →
      drainGo q sv timePadding dedup need hashes body perUser out seen expired =
        drainGoSpecDedup q sv timePadding need hashes body perUser out seen expired := by
  intro hashes
  induction hashes with
  | nil =>
    intro need body perUser out seen expired dedup hnd hkh hd1 hd2
    simp only [drainGo, drainGoSpecDedup]
  | cons h rest ih =>
    intro need body perUser out seen expired dedup hnd hkh hd1 hd2
    rw [List.nodup_cons] at hnd
    rcases need with _ | need
    · simp only [drainGo, drainGoSpecDedup]
    · simp only [drainGo, drainGoSpecDedup]
      cases hlk : lookupKey h body with
      | none =>
        dsimp only
        exact ih (need + 1) body perUser out seen expired dedup hnd.2 hkh
          (fun t ht => (hd1 t ht).imp id
            (fun hc hc' => hc (List.mem_cons_of_mem _ hc'))) hd2
      | some tx =>
        dsimp only
        cases hc : q.checkTx tx sv timePadding with
        | error e =>
          dsimp only
          exact ih (need + 1) (eraseKey h body)
            (decreasePerUserTxCount tx.authority perUser) out seen
            (if e = Error.Expired then expired ++ [tx] else expired) dedup hnd.2
            (fun p hp => hkh p (mem_eraseKey hp))
            (fun t ht => (hd1 t ht).imp id
              (fun hc hc' => hc (List.mem_cons_of_mem _ hc'))) hd2
        | ok u =>
          dsimp only
          have hhash : h = tx.hash := hkh (h, tx) (lookupKey_mem hlk)
          have hiff : tx.hash ∈ dedup ↔ tx.hash ∈ out.map AcceptedTransaction.hash := by
            constructor
            · exact fun hd => hd2 tx.hash hd
            · intro hd
              rcases List.mem_map.mp hd with ⟨t, ht, hth⟩
              rcases hd1 t ht with h1 | h1
              · rw [hth] at h1
                exact h1
              · rw [hth] at h1
                have hmemh : tx.hash ∈ h :: rest := by
                  rw [← hhash]
                  exact List.mem_cons_self h rest
                exact absurd hmemh h1
          by_cases hd : tx.hash ∈ dedup
          · rw [if_pos hd, if_pos (hiff.mp hd)]
            exact ih (need + 1) body perUser out (seen ++ [h]) expired dedup hnd.2 hkh
              (fun t ht => (hd1 t ht).imp id
                (fun hc hc' => hc (List.mem_cons_of_mem _ hc'))) hd2
          · rw [if_neg hd, if_neg (fun hc => hd (hiff.mpr hc))]
            refine ih need body perUser (out ++ [tx]) (seen ++ [h]) expired dedup
              hnd.2 hkh ?_ ?_
            · intro t ht
              rcases List.mem_append.mp ht with ht1 | ht1
              · exact (hd1 t ht1).imp id
                  (fun hc hc' => hc (List.mem_cons_of_mem _ hc'))
              · simp only [List.mem_singleton] at ht1
                subst ht1
                exact Or.inr (hhash ▸ hnd.1)
            · intro x hx
              rw [List.map_append]
              exact List.mem_append.mpr (Or.inl (hd2 x hx))

/-- The drain of `get_transactions_for_block` preserves the state invariant. -/
theorem getTransactionsForBlock_inv {q : Queue} {sv : StateView} {maxTxs : Nat}
    {out : List AcceptedTransaction} {timePadding : Nat} (hq : Inv q) :
    Inv (q.getTransactionsForBlock sv maxTxs out timePadding).1 := by
  unfold Queue.getTransactionsForBlock
  by_cases hguard : maxTxs ≤ out.length
  · rw [if_pos hguard]
    exact hq
  · rw [if_neg hguard]
    have hinv0 : DrainInv q (q.txHashes ++ []) q.acceptedTxs q.txsPerUser := by
      refine ⟨by simpa using hq.nodupHashes, by simpa using hq.hashesHaveEntry,
        hq.nodupKeys, hq.keyIsHash, hq.counterAgree, hq.nodupUserKeys,
        hq.perUserBound, hq.bodyLen, by simpa using hq.orderLen⟩
    have hinv := drainGo_inv q sv timePadding (out.map AcceptedTransaction.hash)
      q.txHashes (maxTxs - out.length) q.acceptedTxs q.txsPerUser out [] [] _ rfl hinv0
    exact { nodupHashes := hinv.nodupHS
            hashesHaveEntry := hinv.haveEntry
            nodupKeys := hinv.nodupKeys
            keyIsHash := hinv.keyIsHash
            counterAgree := hinv.counterAgree
            nodupUserKeys := hinv.nodupUserKeys
            perUserBound := hinv.perUserBound
            bodyLen := hinv.bodyLen
            orderLen := hinv.hsLen
            capPos := hq.capPos
            capPerUserPos := hq.capPerUserPos }

/-- Every reachable queue state satisfies the invariant. -/
theorem reachable_inv {q : Queue} (h : Reachable q) : Inv q := by
  induction h with
  | init c cpu ttl fut now hc hcpu => exact initQueue_inv hc hcpu
  | push q tx sv hr ih => exact push_inv ih
  | drain q sv maxTxs out timePadding hr ih => exact getTransactionsForBlock_inv ih
  | tick q t hr ih => exact tick_inv ih

theorem getTransactionsForBlock_fields (q : Queue) (sv : StateView) (maxTxs : Nat)
    (out : List AcceptedTransaction) (timePadding : Nat) :
    (q.getTransactionsForBlock sv maxTxs out timePadding).1.txTimeToLive =
      q.txTimeToLive ∧
    (q.getTransactionsForBlock sv maxTxs out timePadding).1.futureThreshold =
      q.futureThreshold ∧
    (q.getTransactionsForBlock sv maxTxs out timePadding).1.now = q.now := by
  unfold Queue.getTransactionsForBlock
  split <;> exact ⟨rfl, rfl, rfl⟩

/-- A resident transaction that passes the check is returned by a drain into an
empty output vector whose budget covers the whole ring. -/
theorem drain_returns_all {q : Queue} {sv : StateView} {timePadding : Nat}
    {h : TxHash} {tx : AcceptedTransaction} {maxTxs2 : Nat}
    (hq : Inv q)
    (hlk : lookupKey h q.acceptedTxs = some tx)
    (hmem : h ∈ q.txHashes)
    (hok : q.checkTx tx sv timePadding = .ok ())
    (hmax : q.txHashes.length ≤ maxTxs2) :
    tx ∈ (q.getTransactionsForBlock sv maxTxs2 [] timePadding).2 := by
  have hlen : 0 < q.txHashes.length := List.length_pos.mpr (List.ne_nil_of_mem hmem)
  unfold Queue.getTransactionsForBlock
  rw [if_neg (by simp only [List.length_nil]; omega)]
  simp only [List.map_nil, List.length_nil, Nat.sub_zero]
  exact drainGo_complete q sv timePadding q.txHashes maxTxs2
    q.acceptedTxs q.txsPerUser [] [] [] _ h tx rfl hq.nodupHashes hmax hlk hmem hok

/-- The fate, under one drain call, of a resident transaction whose check
fails: it is never added to the output; it is either untouched (with no new
`Expired` event for it) or dropped, in which case an `Expired` event for its
fingerprint appears exactly when the failure reason is `Expired`. -/
theorem drain_err_state {q : Queue} {sv : StateView} {maxTxs : Nat}
    {out : List AcceptedTransaction} {timePadding : Nat} {h : TxHash}
    {tx : AcceptedTransaction} {e : Error}
    (hq : Inv q)
    (hlk : lookupKey h q.acceptedTxs = some tx)
    (hmem : h ∈ q.txHashes)
    (herr : q.checkTx tx sv timePadding = .error e) :
    (tx ∈ (q.getTransactionsForBlock sv maxTxs out timePadding).2 → tx ∈ out) ∧
    ((h ∈ (q.getTransactionsForBlock sv maxTxs out timePadding).1.txHashes ∧
      lookupKey h
        (q.getTransactionsForBlock sv maxTxs out timePadding).1.acceptedTxs = some tx ∧
      (({ hash := h, blockHeight := none, status := TransactionStatus.Expired } :
          TransactionEvent) ∈
          (q.getTransactionsForBlock sv maxTxs out timePadding).1.events ↔
        ({ hash := h, blockHeight := none, status := TransactionStatus.Expired } :
          TransactionEvent) ∈ q.events)) ∨
     (h ∉ (q.getTransactionsForBlock sv maxTxs out timePadding).1.txHashes ∧
      lookupKey h
        (q.getTransactionsForBlock sv maxTxs out timePadding).1.acceptedTxs = none ∧
      (({ hash := h, blockHeight := none, status := TransactionStatus.Expired } :
          TransactionEvent) ∈
          (q.getTransactionsForBlock sv maxTxs out timePadding).1.events ↔
        (e = Error.Expired ∨
          ({ hash := h, blockHeight := none, status := TransactionStatus.Expired } :
            TransactionEvent) ∈ q.events)))) := by
  have hhash : h = tx.hash := hq.keyIsHash (h, tx) (lookupKey_mem hlk)
  unfold Queue.getTransactionsForBlock
  by_cases hguard : maxTxs ≤ out.length
  · rw [if_pos hguard]
    exact ⟨fun hin => hin, Or.inl ⟨hmem, hlk, Iff.rfl⟩⟩
  · rw [if_neg hguard]
    dsimp only
    generalize hrdef : drainGo q sv timePadding (out.map AcceptedTransaction.hash)
        (maxTxs - out.length) q.txHashes q.acceptedTxs q.txsPerUser out [] [] = r
    obtain ⟨f1, f2, f3, f4, f5, f6, f7⟩ :=
      drainGo_frame q sv timePadding (out.map AcceptedTransaction.hash) q.txHashes
        (maxTxs - out.length) q.acceptedTxs q.txsPerUser out [] [] r hrdef
    obtain ⟨ap, hap, hapok⟩ :=
      drainGo_out_append q sv timePadding (out.map AcceptedTransaction.hash) q.txHashes
        (maxTxs - out.length) q.acceptedTxs q.txsPerUser out [] [] r hrdef
    have htrack := drainGo_track_err q sv timePadding (out.map AcceptedTransaction.hash)
      q.txHashes (maxTxs - out.length) q.acceptedTxs q.txsPerUser out [] [] r h tx e
      hrdef (by simpa using hq.nodupHashes) hq.nodupKeys hq.keyIsHash hlk hmem herr
    have huniq : ∀ t ∈ r.expired, t.hash = h → t = tx := by
      intro t ht hth
      rcases f7 t ht with h0 | ⟨k, hk⟩
      · simp at h0
      · have hkeq : k = t.hash := hq.keyIsHash (k, t) hk
        rw [hth] at hkeq
        subst hkeq
        have := mem_lookupKey hk hq.nodupKeys
        rw [hlk] at this
        injection this with hv
        exact hv.symm
    have hev : (TransactionEvent.mk h none TransactionStatus.Expired ∈
          q.events ++ r.expired.map
            (fun t => TransactionEvent.mk t.hash none TransactionStatus.Expired)) ↔
        (TransactionEvent.mk h none TransactionStatus.Expired ∈ q.events ∨
          tx ∈ r.expired) := by
      rw [List.mem_append]
      constructor
      · rintro (hl | hm)
        · exact Or.inl hl
        · rcases List.mem_map.mp hm with ⟨t, ht, hevt⟩
          injection hevt with ht1 ht2 ht3
          exact Or.inr ((huniq t ht ht1) ▸ ht)
      · rintro (hl | hm)
        · exact Or.inl hl
        · refine Or.inr (List.mem_map.mpr ⟨tx, hm, ?_⟩)
          rw [← hhash]
    constructor
    · intro hin
      rw [hap] at hin
      rcases List.mem_append.mp hin with hin1 | hin1
      · exact hin1
      · have := hapok tx hin1
        rw [herr] at this
        exact absurd this (by simp)
    · rcases htrack with ⟨g1, g2, g3⟩ | ⟨g1, g2, g3⟩
      · refine Or.inl ⟨List.mem_append.mpr (Or.inl g1), g2, ?_⟩
        rw [hev]
        constructor
        · rintro (hl | hm)
          · exact hl
          · exact absurd (g3.mp hm) (by simp)
        · exact Or.inl
      · refine Or.inr ⟨g1, g2, ?_⟩
        rw [hev]
        constructor
        · rintro (hl | hm)
          · exact Or.inr hl
          · rcases g3.mp hm with he | he
            · exact Or.inl he
            · simp at he
        · rintro (he | hl)
          · exact Or.inr (g3.mpr (Or.inl he))
          · exact Or.inl hl

theorem checkTx_state_irrelevant (q : Queue)
    (txs : List (TxHash × AcceptedTransaction)) (pu : List (AccId × Nat))
    (ths : List TxHash) (evs : List TransactionEvent) (tx : AcceptedTransaction)
    (sv : StateView) (timePadding : Nat) :
    ({ q with
        acceptedTxs := txs,
        txsPerUser := pu,
        txHashes := ths,
        events := evs } : Queue).checkTx tx sv timePadding =
      q.checkTx tx sv timePadding := rfl

theorem getTransactionsForBlock_spec_eq {q : Queue} {sv : StateView} {maxTxs : Nat}
    {out : List AcceptedTransaction} {timePadding : Nat} (hq : Inv q) :
    q.getTransactionsForBlock sv maxTxs out timePadding =
      q.getTransactionsForBlockSpecDedup sv maxTxs out timePadding := by
  unfold Queue.getTransactionsForBlock Queue.getTransactionsForBlockSpecDedup
  by_cases hguard : maxTxs ≤ out.length
  · rw [if_pos hguard, if_pos hguard]
  · rw [if_neg hguard, if_neg hguard]
    dsimp only
    rw [drainGo_spec_eq q sv timePadding q.txHashes (maxTxs - out.length)
      q.acceptedTxs q.txsPerUser out [] [] (out.map AcceptedTransaction.hash)
      hq.nodupHashes hq.keyIsHash
      (fun t ht => Or.inl (List.mem_map_of_mem AcceptedTransaction.hash ht))
      (fun x hx => hx)]

/-! The claims. -/

/-- Claim C1: `check_tx` returns the first applicable rejection in the fixed
priority order `InFuture`, `Expired`, `InBlockchain`, `SignatureCondition`,
and `Ok` exactly when all four predicates pass; in particular a transaction
that is both expired and already committed (and not future-dated, the
higher-priority case) is rejected with `Expired`, not `InBlockchain`. -/
theorem claim1_check_priority (q : Queue) (tx : AcceptedTransaction)
    (sv : StateView) (timePadding : Nat) :
    (q.checkTx tx sv timePadding = .error .InFuture ↔ q.isInFuture tx = true) ∧
    (q.checkTx tx sv timePadding = .error .Expired ↔
      q.isInFuture tx = false ∧ q.isExpired tx timePadding = true) ∧
    (q.checkTx tx sv timePadding = .error .InBlockchain ↔
      q.isInFuture tx = false ∧ q.isExpired tx timePadding = false ∧
      tx.isInBlockchain sv = true) ∧
    (q.checkTx tx sv timePadding = .error .SignatureCondition ↔
      q.isInFuture tx = false ∧ q.isExpired tx timePadding = false ∧
      tx.isInBlockchain sv = false ∧ tx.checkSignatureCondition sv = false) ∧
    (q.checkTx tx sv timePadding = .ok () ↔
      q.isInFuture tx = false ∧ q.isExpired tx timePadding = false ∧
      tx.isInBlockchain sv = false ∧ tx.checkSignatureCondition sv = true) ∧
    (q.isInFuture tx = false → q.isExpired tx timePadding = true →
      tx.isInBlockchain sv = true →
      q.checkTx tx sv timePadding = .error .Expired) :=
  ⟨checkTx_error_infuture_iff, checkTx_error_expired_iff,
   checkTx_error_inblockchain_iff, checkTx_error_signature_iff, checkTx_ok_iff,
   fun hf he _ => checkTx_error_expired_iff.mpr ⟨hf, he⟩⟩

/-- Claim C1 witness: a transaction that is both expired and committed (clock
at 200, creation 0, TTL 100, fingerprint in the ledger) is rejected with
`Expired`. -/
theorem claim1_check_priority_witness :
    qC7a.checkTx (txW 1 7 0) (svCommitted [1]) 0 = .error .Expired :=
  (claim1_check_priority qC7a (txW 1 7 0) (svCommitted [1]) 0).2.2.2.2.2
    (by rfl) (by rfl) (by rfl)

/-- Claim C2: the expiry predicate holds exactly when the transaction's age
(saturating at zero) plus the padding strictly exceeds the effective TTL: the
configured default when the transaction carries no TTL, otherwise the minimum
of the default and the transaction's TTL. -/
theorem claim2_expiry_characterization (q : Queue) (tx : AcceptedTransaction)
    (timePadding : Nat) :
    q.isExpired tx timePadding = true ↔
      max ((q.now : Int) - (tx.creationTime : Int)) 0 + (timePadding : Int) >
        (match tx.timeToLive with
         | none => (q.txTimeToLive : Int)
         | some t => min (q.txTimeToLive : Int) (t : Int)) := by
  cases htl : tx.timeToLive with
  | none =>
    simp only [Queue.isExpired, htl, decide_eq_true_iff]
    omega
  | some t =>
    simp only [Queue.isExpired, htl, decide_eq_true_iff]
    omega

/-- Claim C3: every failing `push` is atomic: the failure carries the rejected
transaction itself, the queue state is unchanged (so no `Queued` event is
emitted), and the reason is one of the seven error kinds.  The per-user
counters are assumed positive, as they are in every reachable state. -/
theorem claim3_push_failure_atomic (q : Queue) (tx : AcceptedTransaction)
    (sv : StateView) (f : Failure)
    (hpos : ∀ p ∈ q.txsPerUser, 1 ≤ p.2)
    (h : (q.push tx sv).1 = .error f) :
    (q.push tx sv).2 = q ∧ f.tx = tx ∧
    (f.err = .InFuture ∨ f.err = .Expired ∨ f.err = .InBlockchain ∨
     f.err = .SignatureCondition ∨ f.err = .IsInQueue ∨ f.err = .Full ∨
     f.err = .MaximumTransactionsPerUser) := by
  obtain ⟨h1, h2⟩ := push_fail_state hpos h
  refine ⟨h1, h2, ?_⟩
  cases f.err <;> simp

/-- Claim C3 witness: a push rejected as future-dated leaves the fresh queue
unchanged and returns the transaction itself. -/
theorem claim3_push_failure_atomic_witness :
    (qW0.push (txW 1 7 5) svAccept).2 = qW0 ∧
    (Failure.mk (txW 1 7 5) .InFuture).tx = txW 1 7 5 := by
  have h := claim3_push_failure_atomic qW0 (txW 1 7 5) svAccept
    ⟨txW 1 7 5, .InFuture⟩ (by decide) (by rfl)
  exact ⟨h.1, h.2.1⟩

/-- Claim C4: every reachable queue state satisfies the queue invariants:
every fingerprint in the order buffer has a body entry; for every account the
per-user counter equals the number of body entries with that authority, the
key being absent exactly when that number is zero; the body and order sizes
never exceed the capacity; and no per-user counter exceeds the per-user
capacity. -/
theorem claim4_reachable_invariant (q : Queue) (hq : Reachable q) :
    (∀ h ∈ q.txHashes, ∃ tx, lookupKey h q.acceptedTxs = some tx) ∧
    (∀ a, lookupKey a q.txsPerUser =
      if countAuthority a q.acceptedTxs = 0 then none
      else some (countAuthority a q.acceptedTxs)) ∧
    q.acceptedTxs.length ≤ q.capacity ∧
    q.txHashes.length ≤ q.capacity ∧
    (∀ p ∈ q.txsPerUser, p.2 ≤ q.capacityPerUser) := by
  have hinv := reachable_inv hq
  refine ⟨?_, hinv.counterAgree, hinv.bodyLen, hinv.orderLen, hinv.perUserBound⟩
  intro h hmem
  have hsome := hinv.hashesHaveEntry h hmem
  rcases hlk : lookupKey h q.acceptedTxs with _ | tx
  · rw [hlk] at hsome
    exact absurd hsome (by simp)
  · exact ⟨tx, rfl⟩

/-- Claim C4 witness: the invariants hold for the reachable state with one
admitted transaction. -/
theorem claim4_reachable_invariant_witness :
    qW1.acceptedTxs.length ≤ qW1.capacity ∧ qW1.txHashes.length ≤ qW1.capacity := by
  have h := claim4_reachable_invariant qW1
    (Reachable.push qW0 (txW 1 7 0) svAccept
      (Reachable.init 3 3 100 1 0 (by decide) (by decide)))
  exact ⟨h.2.2.1, h.2.2.2.1⟩

/-- Claim C5: pushing the same transaction twice, when the first push
succeeds, yields `Ok` then `Fail(IsInQueue)`, and the second call leaves the
state exactly as after the first push. -/
theorem claim5_repush_idempotent (q : Queue) (tx : AcceptedTransaction)
    (sv : StateView) (h : (q.push tx sv).1 = .ok ()) :
    ((q.push tx sv).2.push tx sv).1 = .error ⟨tx, .IsInQueue⟩ ∧
    ((q.push tx sv).2.push tx sv).2 = (q.push tx sv).2 := by
  obtain ⟨hc, hl, hcap, hring, perUser, hinc, hstate⟩ := push_ok_state h
  rw [hstate]
  constructor
  · unfold Queue.push
    rw [checkTx_state_irrelevant, hc]
    simp [lookupKey]
  · unfold Queue.push
    rw [checkTx_state_irrelevant, hc]
    simp [lookupKey]

/-- Claim C5 witness: the double push of a concrete transaction on the fresh
queue is rejected as already queued the second time. -/
theorem claim5_repush_idempotent_witness :
    ((qW0.push (txW 1 7 0) svAccept).2.push (txW 1 7 0) svAccept).1 =
      .error ⟨txW 1 7 0, .IsInQueue⟩ :=
  (claim5_repush_idempotent qW0 (txW 1 7 0) svAccept (by rfl)).1

/-- Claim C10: `all_transactions` and the candidate pool of
`n_random_transactions` classify a body entry as pending using only the
padding-zero expiry predicate and ledger membership — a body entry is
returned exactly when it is unexpired and uncommitted, regardless of its
future-dating or of its account's signature condition under the state view. -/
theorem claim10_pending_classification (q : Queue) (sv : StateView)
    (tx : AcceptedTransaction) :
    (tx ∈ q.allTransactions sv ↔ ∃ p ∈ q.acceptedTxs, p.2 = tx ∧
      q.isExpired tx 0 = false ∧ tx.isInBlockchain sv = false) ∧
    (tx ∈ q.nRandomCandidates sv ↔ ∃ p ∈ q.acceptedTxs, p.2 = tx ∧
      q.isExpired tx 0 = false ∧ tx.isInBlockchain sv = false) := by
  constructor <;>
  · simp only [Queue.allTransactions, Queue.nRandomCandidates, List.mem_map,
      List.mem_filter, Queue.isPending, Bool.and_eq_true, Bool.not_eq_true']
    constructor
    · rintro ⟨p, ⟨hp, he, hb⟩, rfl⟩
      exact ⟨p, hp, rfl, he, hb⟩
    · rintro ⟨p, hp, rfl, he, hb⟩
      exact ⟨p, ⟨hp, he, hb⟩, rfl⟩

/-- Claim C6: a queued transaction that passes the drain's check with the
given padding but is not selected (the batch reached its maximum or its
fingerprint duplicates an output entry) keeps its body entry and its place in
the ring, and a subsequent drain against the same state view — with an empty
output vector and a budget covering the ring — returns it. -/
theorem claim6_drain_preservation (q : Queue) (sv : StateView) (maxTxs : Nat)
    (out : List AcceptedTransaction) (timePadding : Nat) (h : TxHash)
    (tx : AcceptedTransaction) (maxTxs2 : Nat)
    (hq : Inv q)
    (hlk : lookupKey h q.acceptedTxs = some tx)
    (hmem : h ∈ q.txHashes)
    (hok : q.checkTx tx sv timePadding = .ok ())
    (hnotsel : tx ∉ (q.getTransactionsForBlock sv maxTxs out timePadding).2)
    (hmax2 : (q.getTransactionsForBlock sv maxTxs out timePadding).1.txHashes.length ≤
      maxTxs2) :
    lookupKey h
      (q.getTransactionsForBlock sv maxTxs out timePadding).1.acceptedTxs = some tx ∧
    h ∈ (q.getTransactionsForBlock sv maxTxs out timePadding).1.txHashes ∧
    tx ∈ ((q.getTransactionsForBlock sv maxTxs out timePadding).1.getTransactionsForBlock
      sv maxTxs2 [] timePadding).2 := by
  have hkeep : lookupKey h
      (q.getTransactionsForBlock sv maxTxs out timePadding).1.acceptedTxs = some tx ∧
      h ∈ (q.getTransactionsForBlock sv maxTxs out timePadding).1.txHashes := by
    unfold Queue.getTransactionsForBlock
    by_cases hguard : maxTxs ≤ out.length
    · rw [if_pos hguard]
      exact ⟨hlk, hmem⟩
    · rw [if_neg hguard]
      dsimp only
      generalize hrdef : drainGo q sv timePadding (out.map AcceptedTransaction.hash)
          (maxTxs - out.length) q.txHashes q.acceptedTxs q.txsPerUser out [] [] = r
      obtain ⟨t1, t2⟩ := drainGo_track_ok q sv timePadding
        (out.map AcceptedTransaction.hash) q.txHashes (maxTxs - out.length)
        q.acceptedTxs q.txsPerUser out [] [] r h tx hrdef
        (by simpa using hq.nodupHashes) hlk hmem hok
      exact ⟨t1, t2⟩
  have hinv2 : Inv (q.getTransactionsForBlock sv maxTxs out timePadding).1 :=
    getTransactionsForBlock_inv hq
  have hok2 : (q.getTransactionsForBlock sv maxTxs out timePadding).1.checkTx tx sv
      timePadding = .ok () := by
    obtain ⟨e1, e2, e3⟩ := getTransactionsForBlock_fields q sv maxTxs out timePadding
    rw [checkTx_eq_of_fields e1 e2 e3 tx sv timePadding]
    exact hok
  exact ⟨hkeep.1, hkeep.2, drain_returns_all hinv2 hkeep.1 hkeep.2 hok2 hmax2⟩

/-- Claim C6 witness: with two admitted transactions and a drain budget of
one, the unselected second transaction stays queued and a later drain with
budget two returns it. -/
theorem claim6_drain_preservation_witness :
    lookupKey 2 (qW2.getTransactionsForBlock svAccept 1 [] 0).1.acceptedTxs =
      some (txW 2 8 0) ∧
    2 ∈ (qW2.getTransactionsForBlock svAccept 1 [] 0).1.txHashes ∧
    txW 2 8 0 ∈ ((qW2.getTransactionsForBlock svAccept 1 [] 0).1.getTransactionsForBlock
      svAccept 2 [] 0).2 :=
  claim6_drain_preservation qW2 svAccept 1 [] 0 2 (txW 2 8 0) 2
    (@push_inv qW1 (txW 2 8 0) svAccept
      (@push_inv qW0 (txW 1 7 0) svAccept
        (initQueue_inv (by decide) (by decide))))
    (by rfl) (by decide) (by rfl) (by decide) (by decide)

/-- Claim C7 counterexample: the claim fails on the code in two ways.  (A) At
a reachable state whose single transaction is both expired and committed, the
next drain does remove it but emits an `Expired` event for it, contradicting
"without emitting an Expired event".  (B) At a reachable state with two
queued transactions of which the second is committed, a drain with budget one
stops before popping it, so the "next drain call" does not remove its body
entry. -/
theorem claim7_counterexample :
    (Reachable qC7a ∧ (svCommitted [1]).hasTransaction 1 = true ∧
      (qC7a.getTransactionsForBlock (svCommitted [1]) 5 [] 0).1.events =
        qC7a.events ++ [TransactionEvent.mk 1 none TransactionStatus.Expired]) ∧
    (Reachable qW2 ∧ (svCommitted [2]).hasTransaction 2 = true ∧
      lookupKey 2 (qW2.getTransactionsForBlock (svCommitted [2]) 1 [] 0).1.acceptedTxs =
        some (txW 2 8 0) ∧
      2 ∈ (qW2.getTransactionsForBlock (svCommitted [2]) 1 [] 0).1.txHashes) := by
  refine ⟨⟨?_, by rfl, by rfl⟩, ⟨?_, by rfl, by rfl, by decide⟩⟩
  · exact Reachable.tick _ 200 (Reachable.push qW0 (txW 1 7 0) svAccept
      (Reachable.init 3 3 100 1 0 (by decide) (by decide)))
  · exact Reachable.push qW1 (txW 2 8 0) svAccept
      (Reachable.push qW0 (txW 1 7 0) svAccept
        (Reachable.init 3 3 100 1 0 (by decide) (by decide)))

/-- Claim C7 (amended): for a queued fingerprint that the state view reports
committed, no drain call returns its transaction beyond entries already in the
caller's output vector; each drain call either leaves its entry untouched
(when it stops before popping the fingerprint) or pops it, removing the body
entry and keeping the fingerprint out of the ring; and a new `Expired` event
for the fingerprint is emitted only if the transaction is also expired under
the drain's padding. -/
theorem claim7_amended_drop_if_committed (q : Queue) (sv : StateView)
    (maxTxs : Nat) (out : List AcceptedTransaction) (timePadding : Nat)
    (h : TxHash) (tx : AcceptedTransaction)
    (hq : Inv q)
    (hlk : lookupKey h q.acceptedTxs = some tx)
    (hmem : h ∈ q.txHashes)
    (hcom : sv.hasTransaction h = true) :
    (tx ∈ (q.getTransactionsForBlock sv maxTxs out timePadding).2 → tx ∈ out) ∧
    ((h ∈ (q.getTransactionsForBlock sv maxTxs out timePadding).1.txHashes ∧
      lookupKey h
        (q.getTransactionsForBlock sv maxTxs out timePadding).1.acceptedTxs = some tx) ∨
     (h ∉ (q.getTransactionsForBlock sv maxTxs out timePadding).1.txHashes ∧
      lookupKey h
        (q.getTransactionsForBlock sv maxTxs out timePadding).1.acceptedTxs = none)) ∧
    (q.isExpired tx timePadding = false →
      (TransactionEvent.mk h none TransactionStatus.Expired ∈
          (q.getTransactionsForBlock sv maxTxs out timePadding).1.events ↔
        TransactionEvent.mk h none TransactionStatus.Expired ∈ q.events)) := by
  have hhash : h = tx.hash := hq.keyIsHash (h, tx) (lookupKey_mem hlk)
  have hb : tx.isInBlockchain sv = true := by
    unfold AcceptedTransaction.isInBlockchain
    rw [← hhash]
    exact hcom
  cases hct : q.checkTx tx sv timePadding with
  | ok u =>
    cases u
    exact absurd hct (checkTx_ne_ok_of_inBlockchain hb)
  | error e =>
    obtain ⟨d1, d2⟩ := drain_err_state hq hlk hmem hct
    refine ⟨d1, ?_, ?_⟩
    · rcases d2 with ⟨g1, g2, g3⟩ | ⟨g1, g2, g3⟩
      · exact Or.inl ⟨g1, g2⟩
      · exact Or.inr ⟨g1, g2⟩
    · intro hnexp
      have hne : e ≠ Error.Expired := by
        intro hcontra
        subst hcontra
        obtain ⟨-, hexp⟩ := checkTx_error_expired_iff.mp hct
        rw [hexp] at hnexp
        exact Bool.noConfusion hnexp
      rcases d2 with ⟨g1, g2, g3⟩ | ⟨g1, g2, g3⟩
      · exact g3
      · rw [g3]
        constructor
        · rintro (hc | hc)
          · exact absurd hc hne
          · exact hc
        · exact Or.inr

/-- Claim C7 (amended) witness: the committed transaction in the one-element
reachable state is popped and dropped by a full drain. -/
theorem claim7_amended_drop_if_committed_witness :
    (1 ∈ (qW1.getTransactionsForBlock (svCommitted [1]) 5 [] 0).1.txHashes ∧
     lookupKey 1 (qW1.getTransactionsForBlock (svCommitted [1]) 5 [] 0).1.acceptedTxs =
       some (txW 1 7 0)) ∨
    (1 ∉ (qW1.getTransactionsForBlock (svCommitted [1]) 5 [] 0).1.txHashes ∧
     lookupKey 1 (qW1.getTransactionsForBlock (svCommitted [1]) 5 [] 0).1.acceptedTxs =
       none) :=
  (claim7_amended_drop_if_committed qW1 (svCommitted [1]) 5 [] 0 1 (txW 1 7 0)
    (@push_inv qW0 (txW 1 7 0) svAccept
      (initQueue_inv (by decide) (by decide)))
    (by rfl) (by decide) (by rfl)).2.1

/-- Claim C8 counterexample: at a reachable state whose clock was rewound, a
drain pops a transaction whose check fails with `InFuture` — a sub-reason
outside the claimed `Expired`/`InBlockchain`/`SignatureCondition` — and drops
it (body and ring emptied) with no event. -/
theorem claim8_counterexample :
    Reachable qC8 ∧
    lookupKey 1 qC8.acceptedTxs = some (txW 1 7 5) ∧
    (1 : TxHash) ∈ qC8.txHashes ∧
    qC8.checkTx (txW 1 7 5) svAccept 0 = .error .InFuture ∧
    ¬(Error.InFuture = Error.Expired ∨ Error.InFuture = Error.InBlockchain ∨
      Error.InFuture = Error.SignatureCondition) ∧
    (qC8.getTransactionsForBlock svAccept 5 [] 0).2 = [] ∧
    (qC8.getTransactionsForBlock svAccept 5 [] 0).1.acceptedTxs = [] ∧
    (qC8.getTransactionsForBlock svAccept 5 [] 0).1.txHashes = [] ∧
    (qC8.getTransactionsForBlock svAccept 5 [] 0).1.events = qC8.events := by
  refine ⟨?_, by rfl, by decide, by rfl, by decide, by rfl, by rfl, by rfl, by rfl⟩
  exact Reachable.tick _ 0 (Reachable.push (initQueue 3 3 100 1 5) (txW 1 7 5) svAccept
    (Reachable.init 3 3 100 1 5 (by decide) (by decide)))

/-- Claim C8 (amended): a popped transaction that fails the drain's check is
dropped with one of the sub-reasons `InFuture`, `Expired`, `InBlockchain`, or
`SignatureCondition`; during the drain a failing resident transaction is
either untouched (no new `Expired` event for its fingerprint) or removed from
the body map and ring, with an `Expired` event for its fingerprint newly
emitted exactly when the drop reason is `Expired`; and it is never returned in
the output beyond entries already there. -/
theorem claim8_amended_drop_reasons (q : Queue) (sv : StateView) (maxTxs : Nat)
    (out : List AcceptedTransaction) (timePadding : Nat) (h : TxHash)
    (tx : AcceptedTransaction) (e : Error)
    (hq : Inv q)
    (hlk : lookupKey h q.acceptedTxs = some tx)
    (hmem : h ∈ q.txHashes)
    (herr : q.checkTx tx sv timePadding = .error e) :
    (e = .InFuture ∨ e = .Expired ∨ e = .InBlockchain ∨ e = .SignatureCondition) ∧
    (tx ∈ (q.getTransactionsForBlock sv maxTxs out timePadding).2 → tx ∈ out) ∧
    ((h ∈ (q.getTransactionsForBlock sv maxTxs out timePadding).1.txHashes ∧
      lookupKey h
        (q.getTransactionsForBlock sv maxTxs out timePadding).1.acceptedTxs = some tx ∧
      (TransactionEvent.mk h none TransactionStatus.Expired ∈
          (q.getTransactionsForBlock sv maxTxs out timePadding).1.events ↔
        TransactionEvent.mk h none TransactionStatus.Expired ∈ q.events)) ∨
     (h ∉ (q.getTransactionsForBlock sv maxTxs out timePadding).1.txHashes ∧
      lookupKey h
        (q.getTransactionsForBlock sv maxTxs out timePadding).1.acceptedTxs = none ∧
      (TransactionEvent.mk h none TransactionStatus.Expired ∈
          (q.getTransactionsForBlock sv maxTxs out timePadding).1.events ↔
        (e = Error.Expired ∨
          TransactionEvent.mk h none TransactionStatus.Expired ∈ q.events)))) := by
  obtain ⟨d1, d2⟩ := drain_err_state hq hlk hmem herr
  exact ⟨checkTx_error_cases herr, d1, d2⟩

/-- Claim C8 (amended) witness: the expired transaction at the clock-advanced
reachable state is dropped with reason `Expired`. -/
theorem claim8_amended_drop_reasons_witness :
    Error.Expired = Error.InFuture ∨ Error.Expired = Error.Expired ∨
    Error.Expired = Error.InBlockchain ∨ Error.Expired = Error.SignatureCondition :=
  (claim8_amended_drop_reasons qC7a svAccept 5 [] 0 1 (txW 1 7 0) Error.Expired
    (@tick_inv qW1 200
      (@push_inv qW0 (txW 1 7 0) svAccept
        (initQueue_inv (by decide) (by decide))))
    (by rfl) (by decide) (by rfl)).1

/-- Claim C9: a drain call deduplicates exactly as the specification words it
— the code's fixed set, built from the initial contents of the output vector,
is equivalent to the growing set of the initial contents plus everything
appended, because appended fingerprints never recur among later pops — and a
popped check-passing transaction whose fingerprint is already in the output
vector is not appended but kept: its body entry and ring membership survive
the call. -/
theorem claim9_dedup_refinement (q : Queue) (sv : StateView) (maxTxs : Nat)
    (out : List AcceptedTransaction) (timePadding : Nat) (hq : Inv q) :
    q.getTransactionsForBlock sv maxTxs out timePadding =
      q.getTransactionsForBlockSpecDedup sv maxTxs out timePadding ∧
    (∀ h tx, lookupKey h q.acceptedTxs = some tx → h ∈ q.txHashes →
      q.checkTx tx sv timePadding = .ok () →
      tx.hash ∈ out.map AcceptedTransaction.hash →
      h ∈ (q.getTransactionsForBlock sv maxTxs out timePadding).1.txHashes ∧
      lookupKey h
        (q.getTransactionsForBlock sv maxTxs out timePadding).1.acceptedTxs = some tx) := by
  refine ⟨getTransactionsForBlock_spec_eq hq, ?_⟩
  intro h tx hlk hmem hok hdup
  unfold Queue.getTransactionsForBlock
  by_cases hguard : maxTxs ≤ out.length
  · rw [if_pos hguard]
    exact ⟨hmem, hlk⟩
  · rw [if_neg hguard]
    dsimp only
    generalize hrdef : drainGo q sv timePadding (out.map AcceptedTransaction.hash)
        (maxTxs - out.length) q.txHashes q.acceptedTxs q.txsPerUser out [] [] = r
    obtain ⟨t1, t2⟩ := drainGo_track_ok q sv timePadding
      (out.map AcceptedTransaction.hash) q.txHashes (maxTxs - out.length)
      q.acceptedTxs q.txsPerUser out [] [] r h tx hrdef
      (by simpa using hq.nodupHashes) hlk hmem hok
    exact ⟨t2, t1⟩

/-- Claim C9 witness: the refinement at a reachable two-transaction state with
a non-empty initial output vector duplicating the first fingerprint. -/
theorem claim9_dedup_refinement_witness :
    qW2.getTransactionsForBlock svAccept 3 [txW 1 7 0] 0 =
      qW2.getTransactionsForBlockSpecDedup svAccept 3 [txW 1 7 0] 0 :=
  (claim9_dedup_refinement qW2 svAccept 3 [txW 1 7 0] 0
    (@push_inv qW1 (txW 2 8 0) svAccept
      (@push_inv qW0 (txW 1 7 0) svAccept
        (initQueue_inv (by decide) (by decide))))).1

end IrohaQueue
